import Mathlib

/-!
# A shallow embedding of the `bencode` Go package

This file embeds the two source files of the repository (`encode.go` and the
decoder file) into Lean and proves the frozen claims about them.

Conventions of the embedding:
* Go byte slices are `List Nat` (each element a byte value; e.g. `105` is `'i'`,
  `101` is `'e'`, `108` is `'l'`, `100` is `'d'`, `58` is `':'`, `45` is `'-'`,
  digits are `48`–`57`).
* The dynamic values handled by the package (`interface{}` restricted to
  `int`/`string`/`[]interface{}`/`map[string]interface{}`, plus the untyped
  `nil`) are the inductive `GoVal`.  Go's `map[string]interface{}` is modelled
  as an association list with unique keys; `mapInsert` models `m[k] = v`
  (replace an existing binding, otherwise add) and `mapLookup` models `m[k]`.
  Go map iteration order is unspecified; the model iterates in list order, and
  the order-independence of everything observable is proved (claim C5).
* A Go function that can fail returns its named results `(res, err)` together
  with the updated receiver; this is the `.ret res err d` constructor of `Ret`.
  A Go runtime panic (out-of-range slice index) is the `.panic` constructor:
  every slice access the source performs without a bounds check is modelled by
  `l[i]?` with `none ↦ .panic`.
* The decoder's recursion (`nextObject` ↔ `nextList`/`nextDict`) is embedded
  with an explicit fuel parameter so that all definitions are structurally
  recursive and computable; `.fuelOut` marks fuel exhaustion.  `Decode` and
  `DecodeAll` supply `4 * stream.length + 4` fuel, which is proved (and in the
  concrete evaluations seen) to exceed the recursion depth the source can
  reach on the inputs the theorems speak about.
* Go's `int` is 64-bit; `strconv.Atoi` is `atoi` below, failing (as the Go
  function reports an error) on syntax errors and on values outside
  `[-2^63, 2^63-1]`.
-/

/-- The dynamic values of the package: Go's `interface{}` restricted to the
kinds the decoder produces and the encoder accepts, plus untyped `nil`. -/
inductive GoVal where
  | vnil : GoVal
  | vint (n : Int) : GoVal
  | vstr (s : List Nat) : GoVal
  | vlist (xs : List GoVal) : GoVal
  | vmap (m : List (List Nat × GoVal)) : GoVal

/-- Go `m[k]` on the association-list model of `map[string]interface{}`. -/
def mapLookup : List (List Nat × GoVal) → List Nat → Option GoVal
  | [], _ => none
  | (k', v') :: rest, k => if k' = k then some v' else mapLookup rest k

/-- Go `m[k] = v`: replace the binding of `k` if present, else append it. -/
def mapInsert : List (List Nat × GoVal) → List Nat → GoVal → List (List Nat × GoVal)
  | [], k, v => [(k, v)]
  | (k', v') :: rest, k, v =>
    if k' = k then (k', v) :: rest else (k', v') :: mapInsert rest k v

/-- Byte-wise lexicographic `≤` on byte strings: the order `sort.Strings`
sorts by in `encodeDict`. -/
def lexLe : List Nat → List Nat → Bool
  | [], _ => true
  | _ :: _, [] => false
  | a :: as, b :: bs => if a < b then true else if b < a then false else lexLe as bs

/-- `sort.Strings keys` from `encodeDict`: sort byte strings ascending. -/
def sortKeys (ks : List (List Nat)) : List (List Nat) :=
  List.insertionSort (fun a b => lexLe a b = true) ks

/-- Decimal digit characters of a natural number, most significant first
(the digits `fmt.Sprintf("%d", n)` prints).  The fuel argument only makes the
recursion structural; `n + 1` fuel always suffices. -/
def natDigitsAux : Nat → Nat → List Nat
  | 0, _ => []
  | fuel + 1, n => if n < 10 then [48 + n] else natDigitsAux fuel (n / 10) ++ [48 + n % 10]

/-- Decimal digit characters of `n : Nat`, most significant first. -/
def natDigits (n : Nat) : List Nat := natDigitsAux (n + 1) n

/-- Decimal characters of `n : Int`, a `'-'` (45) first when negative:
what `fmt.Sprintf("%d", i)` prints for an `int64`. -/
def intDigits (n : Int) : List Nat :=
  if n < 0 then 45 :: natDigits (-n).toNat else natDigits n.toNat

/-- Value of a decimal digit string (most significant first). -/
def digitsVal (s : List Nat) : Nat := s.foldl (fun a c => 10 * a + (c - 48)) 0

/-- `true` iff every byte of `s` is an ASCII digit. -/
def allDigits (s : List Nat) : Bool := s.all (fun c => decide (48 ≤ c) && decide (c ≤ 57))

/-- `strconv.Atoi` on a 64-bit platform: optional single leading sign, then
decimal digits; `none` both on malformed input and when the value overflows
the `int` range `[-2^63, 2^63-1]` (Go reports `ErrSyntax`/`ErrRange`; the
sources only test the error against `nil`, so the two are not distinguished). -/
def atoi (s : List Nat) : Option Int :=
  match s with
  | [] => none
  | c :: rest =>
    if c = 45 ∨ c = 43 then
      if rest.isEmpty || !allDigits rest then none
      else
        let v : Int := if c = 45 then -(digitsVal rest : Int) else (digitsVal rest : Int)
        if v < -(2 ^ 63) ∨ v > 2 ^ 63 - 1 then none else some v
    else
      if !allDigits s then none
      else if (digitsVal s : Int) > 2 ^ 63 - 1 then none
      else some (digitsVal s : Int)

/-! ## The encoder (`encode.go`) -/

/-- `Encoder` holds the accumulated output stream (`Encoder.Bytes`). -/
structure Encoder where
  Bytes : List Nat

/-- `NewEncoder`. -/
def NewEncoder : Encoder := ⟨[]⟩

/-- `encodeString`: `fmt.Sprintf("%d:%s", len(s), s)` (with the source's
special case for an empty string, which prints the same bytes `0:`). -/
def encodeString (s : List Nat) : List Nat :=
  if s.length ≤ 0 then natDigits 0 ++ [58]
  else natDigits s.length ++ [58] ++ s

/-- `encodeInteger`: `fmt.Sprintf("i%de", i)`. -/
def encodeInteger (n : Int) : List Nat := 105 :: intDigits n ++ [101]

/-- `encodeUinteger`: `fmt.Sprintf("i%de", i)` for an unsigned value.  (No
`GoVal` constructor carries an unsigned integer — the decoder never produces
one — so `encodeObject` below never reaches this function; it is included for
completeness.) -/
def encodeUinteger (n : Nat) : List Nat := 105 :: natDigits n ++ [101]

/-- `sizeOf` of a looked-up map value is smaller than that of the map:
the termination argument for `encodeDict`'s key loop. -/
theorem mapLookup_sizeOf (m : List (List Nat × GoVal)) (k : List Nat) (v : GoVal)
    (h : mapLookup m k = some v) : sizeOf v < sizeOf m := by
  induction m with
  | nil => simp [mapLookup] at h
  | cons p rest ih =>
    obtain ⟨k', v'⟩ := p
    simp only [mapLookup] at h
    split at h
    · cases h; simp; omega
    · have := ih h; simp; omega

/- The branches of `encodeObject`'s reflection `switch` over the value kinds,
together with `encodeList`'s element loop and `encodeDict`'s sorted-key loop.
`none` is the `panic` of the `default` branch (raised on `nil` or any value
outside the four kinds; a panic inside a loop propagates, which `Option`'s
`do`-notation mirrors).  In `encodeDict`, `m` is carried as head `p` plus tail
`rest` because the source only enters the loop when the map is non-empty. -/
mutual

def encodeObject : GoVal → Option (List Nat)
  | .vnil => none
  | .vstr s => some (encodeString s)
  | .vint n => some (encodeInteger n)
  | .vlist l => encodeList l
  | .vmap m => encodeDict m
termination_by v => (sizeOf v, 0, 0)

/-- `encodeList`: `nil` for an empty list, else `l` + elements + `e`. -/
def encodeList : List GoVal → Option (List Nat)
  | [] => some []
  | x :: xs => do
    let bs ← encodeItems (x :: xs)
    some (108 :: (bs ++ [101]))
termination_by l => (sizeOf l, 1, 0)

/-- The element loop of `encodeList`. -/
def encodeItems : List GoVal → Option (List Nat)
  | [] => some []
  | x :: xs => do
    let b ← encodeObject x
    let bs ← encodeItems xs
    some (b ++ bs)
termination_by l => (sizeOf l, 0, 0)

/-- `encodeDict`: `nil` for an empty map, else collect the keys, sort them,
and emit `d` + (key + value, in sorted key order) + `e`. -/
def encodeDict : List (List Nat × GoVal) → Option (List Nat)
  | [] => some []
  | p :: rest => do
    let bs ← encodeEntries p rest (sortKeys ((p :: rest).map Prod.fst))
    some (100 :: (bs ++ [101]))
termination_by m => (sizeOf m, 2, 0)

/-- The sorted-key loop of `encodeDict`: for each key, emit the string
encoding of the key followed by the encoding of `m[k]`. -/
def encodeEntries (p : List Nat × GoVal) (rest : List (List Nat × GoVal)) :
    List (List Nat) → Option (List Nat)
  | [] => some []
  | k :: ks => do
    let bv ← encodeObject ((mapLookup (p :: rest) k).getD .vnil)
    let bs ← encodeEntries p rest ks
    some (encodeString k ++ bv ++ bs)
termination_by ks => (sizeOf (p :: rest), 0, ks.length)
decreasing_by
  · refine Prod.Lex.left _ _ ?_
    cases h : mapLookup (p :: rest) k with
    | none =>
      obtain ⟨pk, pv⟩ := p
      simp [Option.getD]
      omega
    | some v =>
      have := mapLookup_sizeOf _ _ _ h
      simpa using this
  · exact Prod.Lex.right _ (Prod.Lex.right _ (by simp))

end

/-- `Encoder.Encode`: append `encodeObject in` to the stream when non-empty;
`none` when `encodeObject` panicked. -/
def Encoder.Encode (enc : Encoder) (v : GoVal) : Option Encoder :=
  match encodeObject v with
  | none => none
  | some b => some ⟨if b.length > 0 then enc.Bytes ++ b else enc.Bytes⟩

/-- The free function `Encode`: run a fresh encoder and return its bytes. -/
def Encode (v : GoVal) : Option (List Nat) :=
  (Encoder.Encode NewEncoder v).map Encoder.Bytes

/-! ## The decoder -/

/-- The `Decoder` struct: input stream, cursor, `Consumed` flag, `Last`. -/
structure Decoder where
  stream : List Nat
  pos : Nat
  Consumed : Bool
  Last : Nat

/-- `NewDecoder`. -/
def NewDecoder (b : List Nat) : Decoder := ⟨b, 0, false, 0⟩

/-- `GetPos`. -/
def Decoder.GetPos (d : Decoder) : Nat := d.pos

/-- The errors the decoder constructs with `fmt.Errorf`, one constructor per
format string. -/
inductive BErr where
  | consumedErr : BErr                 -- "This parser's token stream is consumed!"
  | couldntParse (b : Nat) : BErr      -- "Couldn't parse '…' … '…'"
  | noStartingI : BErr                 -- "No starting 'i' found"
  | endOfStream : BErr                 -- "Reached the end of the stream"
  | invalidByte (b : Nat) : BErr       -- "Invalid byte '…' in encoded integer."
  | noEndingE : BErr                   -- "No ending 'e' found"
  | atoiErr : BErr                     -- the error `strconv.Atoi` returned
  | noLenDeterminator : BErr           -- "No string length determinator found"
  | noStringFound : BErr               -- "No string found ..."
  | lenSpecErr : BErr                  -- "Couldn't parse string length specifier: …"
  | lengthExceeds : BErr               -- "Specified length longer than data buffer ..."
  | notList : BErr                     -- "This is not a list!"
  | notDict : BErr                     -- "This is not a dict!"

/-- Outcome of one decoder method: the Go named returns `(res, err)` plus the
updated receiver, or a runtime panic (out-of-range index), or fuel exhaustion
of the embedding. -/
inductive Ret (α : Type) where
  | ret (res : α) (err : Option BErr) (d : Decoder) : Ret α
  | panic : Ret α
  | fuelOut : Ret α

/-- Outcome of the scanning loops inside `nextInteger`/`nextString`. -/
inductive ScanRes where
  | panic : ScanRes
  | err (e : BErr) : ScanRes
  | found (idx : Nat) : ScanRes

/-- Go `s[a:b]`. -/
def sliceGo (s : List Nat) (a b : Nat) : List Nat := (s.take b).drop a

/-- The scan loop of `nextInteger`: starting at `idx`, stop at the first
`'e'`; any byte other than a digit or `'-'` is an "Invalid byte" error; the
bounds check happens only after `idx++`, so the very first access can be out
of range (`.panic`).  The fuel is maintained at exactly
`s.length + 1 - idx`, so the zero-fuel case coincides with the
out-of-range read and is also `.panic`. -/
def intScanAux : Nat → List Nat → Nat → ScanRes
  | 0, _, _ => .panic
  | fuel + 1, s, idx =>
    match s[idx]? with
    | none => .panic
    | some b =>
      if b = 101 then .found idx
      else if (b < 48 ∨ b > 57) ∧ b ≠ 45 then .err (.invalidByte b)
      else if s.length ≤ idx + 1 then .err .noEndingE
      else intScanAux fuel s (idx + 1)

def intScan (s : List Nat) (idx : Nat) : ScanRes := intScanAux (s.length + 1 - idx) s idx

/-- `nextInteger`. -/
def nextInteger (d : Decoder) : Ret Int :=
  if d.pos < d.stream.length then
    if d.stream.getD d.pos 0 ≠ 105 then .ret 0 (some .noStartingI) d
    else
      match intScan d.stream (d.pos + 1) with
      | .panic => .panic
      | .err e => .ret 0 (some e) d
      | .found idx =>
        match atoi (sliceGo d.stream (d.pos + 1) idx) with
        | none => .ret 0 (some .atoiErr) d
        | some r => .ret r none { d with pos := idx + 1 }
  else .ret 0 (some .endOfStream) d

/-- The length-scan loop of `nextString`: starting at the cursor, stop at the
first `':'`; here the bounds check happens after `len_end++` and before the
next access, so the loop itself cannot go out of range when entered in
bounds.  Fuel as in `intScanAux`. -/
def colonScanAux : Nat → List Nat → Nat → ScanRes
  | 0, _, _ => .panic
  | fuel + 1, s, i =>
    match s[i]? with
    | none => .panic
    | some b =>
      if b = 58 then .found i
      else if s.length ≤ i + 1 then .err .noStringFound
      else colonScanAux fuel s (i + 1)

def colonScan (s : List Nat) (i : Nat) : ScanRes := colonScanAux (s.length + 1 - i) s i

/-- `nextString`.  Note the length guard is `l >= len(stream[len_end:])`
(the remaining bytes *including* the `':'`), i.e. the declared length may
equal, but not exceed, the bytes remaining after the `':'`. -/
def nextString (d : Decoder) : Ret (List Nat) :=
  if d.pos < d.stream.length then
    if d.stream.getD d.pos 0 < 48 ∨ d.stream.getD d.pos 0 > 57 then
      .ret [] (some .noLenDeterminator) d
    else
      match colonScan d.stream d.pos with
      | .panic => .panic
      | .err e => .ret [] (some e) d
      | .found lenEnd =>
        match atoi (sliceGo d.stream d.pos lenEnd) with
        | none => .ret [] (some .lenSpecErr) d
        | some l =>
          if (d.stream.length - lenEnd : Int) ≤ l then .ret [] (some .lengthExceeds) d
          else
            .ret (sliceGo d.stream (lenEnd + 1) (lenEnd + 1 + l.toNat)) none
              { d with pos := lenEnd + 1 + l.toNat }
  else .ret [] (some .endOfStream) d

/-- Wrap a typed result into the `interface{}` result of `nextObject`. -/
def mapRet {α : Type} (g : α → GoVal) : Ret α → Ret GoVal
  | .ret v e d => .ret (g v) e d
  | .panic => .panic
  | .fuelOut => .fuelOut

/-- The tail of `nextObject`: `if self.pos >= len(self.stream) { self.Consumed = true }`. -/
def setCons : Ret GoVal → Ret GoVal
  | .ret v e d =>
    .ret v e (if d.stream.length ≤ d.pos then { d with Consumed := true } else d)
  | .panic => .panic
  | .fuelOut => .fuelOut

/- `nextObject`, `nextList` (header plus its element loop `listLoop`) and
`nextDict` (header plus its pair loop `dictLoop`).  The fuel argument makes
the mutual recursion structural; every recursive call uses one unit. -/
mutual

/-- `nextObject`: dispatch on the byte at the cursor — read *without* a
bounds check, hence `.panic` on an exhausted buffer. -/
def nextObject : Nat → Decoder → Ret GoVal
  | 0, _ => .fuelOut
  | fuel + 1, d =>
    if d.Consumed then .ret .vnil (some .consumedErr) d
    else
      match d.stream[d.pos]? with
      | none => .panic
      | some c =>
        setCons
          (if c = 105 then mapRet .vint (nextInteger d)
           else if 48 ≤ c ∧ c ≤ 57 then mapRet .vstr (nextString d)
           else if c = 108 then mapRet .vlist (nextList fuel d)
           else if c = 100 then mapRet .vmap (nextDict fuel d)
           else .ret .vnil (some (.couldntParse c)) d)

/-- `nextList` header: require `'l'`, skip it, run the element loop. -/
def nextList : Nat → Decoder → Ret (List GoVal)
  | 0, _ => .fuelOut
  | fuel + 1, d =>
    if d.pos < d.stream.length then
      if d.stream.getD d.pos 0 ≠ 108 then .ret [] (some .notList) d
      else listLoop fuel [] { d with pos := d.pos + 1 }
    else .ret [] (some .endOfStream) d

/-- The element loop of `nextList`: parse one object (an error aborts,
returning the elements collected so far alongside it), append it, then test
the byte at the cursor — again without a bounds check — for the
terminating `'e'`. -/
def listLoop : Nat → List GoVal → Decoder → Ret (List GoVal)
  | 0, _, _ => .fuelOut
  | fuel + 1, acc, d =>
    match nextObject fuel d with
    | .panic => .panic
    | .fuelOut => .fuelOut
    | .ret o e d' =>
      match e with
      | some e' => .ret acc (some e') d'
      | none =>
        match d'.stream[d'.pos]? with
        | none => .panic
        | some b =>
          if b = 101 then .ret (acc ++ [o]) none { d' with pos := d'.pos + 1 }
          else listLoop fuel (acc ++ [o]) d'

/-- `nextDict` header: require `'d'`, make the (empty) result map, skip the
`'d'`, run the pair loop. -/
def nextDict : Nat → Decoder → Ret (List (List Nat × GoVal))
  | 0, _ => .fuelOut
  | fuel + 1, d =>
    if d.pos < d.stream.length then
      if d.stream.getD d.pos 0 ≠ 100 then .ret [] (some .notDict) d
      else dictLoop fuel [] { d with pos := d.pos + 1 }
    else .ret [] (some .endOfStream) d

/-- The pair loop of `nextDict`: parse a string key, then an object value
(either failure aborts, returning the map built so far alongside the error),
store `res[key] = val`, then test the byte at the cursor — without a bounds
check — for the terminating `'e'`. -/
def dictLoop : Nat → List (List Nat × GoVal) → Decoder → Ret (List (List Nat × GoVal))
  | 0, _, _ => .fuelOut
  | fuel + 1, acc, d =>
    match nextString d with
    | .panic => .panic
    | .fuelOut => .fuelOut
    | .ret key e d₁ =>
      match e with
      | some e' => .ret acc (some e') d₁
      | none =>
        match nextObject fuel d₁ with
        | .panic => .panic
        | .fuelOut => .fuelOut
        | .ret val e₂ d₂ =>
          match e₂ with
          | some e' => .ret acc (some e') d₂
          | none =>
            let acc' := mapInsert acc key val
            match d₂.stream[d₂.pos]? with
            | none => .panic
            | some b =>
              if b = 101 then .ret acc' none { d₂ with pos := d₂.pos + 1 }
              else dictLoop fuel acc' d₂

end

/-- The fuel `Decode`/`DecodeAll` run the recursion with: comfortably above
the deepest call chain reachable on a buffer of this length (each nesting
level consumes at least one input byte and at most four fuel units). -/
def defaultFuel (d : Decoder) : Nat := 4 * d.stream.length + 4

/-- `Decode`: read one object; on success (only) record the cursor in `Last`. -/
def Decode (d : Decoder) : Ret GoVal :=
  match nextObject (defaultFuel d) d with
  | .ret v none d' => .ret v none { d' with Last := d'.pos }
  | r => r

/-- The loop of `DecodeAll`: `nextObject` repeatedly until the cursor reaches
the end; an error stops the loop, returning the objects already collected
alongside it. -/
def decodeAllLoop : Nat → List GoVal → Decoder → Ret (List GoVal)
  | 0, _, _ => .fuelOut
  | fuel + 1, acc, d =>
    match nextObject fuel d with
    | .panic => .panic
    | .fuelOut => .fuelOut
    | .ret o e d' =>
      match e with
      | some e' => .ret acc (some e') d'
      | none =>
        let acc' := acc ++ [o]
        if d'.stream.length ≤ d'.pos then .ret acc' none d'
        else decodeAllLoop fuel acc' d'

/-- `DecodeAll`. -/
def DecodeAll (d : Decoder) : Ret (List GoVal) :=
  decodeAllLoop (defaultFuel d) [] d

/-- The spec's `decode_one`: decode one object from a fresh decoder. -/
def decode_one (b : List Nat) : Ret GoVal := Decode (NewDecoder b)

/-- The spec's `decode_all`: decode all objects from a fresh decoder. -/
def decode_all (b : List Nat) : Ret (List GoVal) := DecodeAll (NewDecoder b)

/-! ## Canonical values, well-formedness, fuel accounting -/

/-- The order `encodeDict` sorts by, lifted to map entries (keys only). -/
def entLe (p q : List Nat × GoVal) : Prop := lexLe p.1 q.1 = true

instance : DecidableRel entLe := fun p q => by unfold entLe; infer_instance

/-- Map entries sorted by key, the canonical entry order of an encoded dict. -/
def sortEntries (m : List (List Nat × GoVal)) : List (List Nat × GoVal) :=
  List.insertionSort entLe m

/- `canon` and its list/entry companions. -/
mutual

/-- The canonical form of a value: what decoding its encoding yields — the
value itself, except that every dict's entries appear in sorted key order. -/
def canon : GoVal → GoVal
  | .vnil => .vnil
  | .vint n => .vint n
  | .vstr s => .vstr s
  | .vlist xs => .vlist (canonList xs)
  | .vmap m => .vmap (sortEntries (canonEntries m))

def canonList : List GoVal → List GoVal
  | [] => []
  | x :: xs => canon x :: canonList xs

def canonEntries : List (List Nat × GoVal) → List (List Nat × GoVal)
  | [] => []
  | (k, v) :: r => (k, canon v) :: canonEntries r

end

/- Well-formed inhabitants of the spec's data model that the source can
round-trip: no `nil`, integers in the 64-bit range, string and key lengths
representable (trivially true of any real Go slice), dict keys unique, and —
the restriction claim C1 is corrected by — no empty list or dict anywhere. -/
mutual

def good : GoVal → Bool
  | .vnil => false
  | .vint n => decide (-(2 ^ 63) ≤ n) && decide (n ≤ 2 ^ 63 - 1)
  | .vstr s => decide (s.length ≤ 2 ^ 63 - 1)
  | .vlist xs => !xs.isEmpty && goodList xs
  | .vmap m => !m.isEmpty && decide (m.map Prod.fst).Nodup && goodEntries m

def goodList : List GoVal → Bool
  | [] => true
  | x :: xs => good x && goodList xs

def goodEntries : List (List Nat × GoVal) → Bool
  | [] => true
  | (k, v) :: r => decide (k.length ≤ 2 ^ 63 - 1) && good v && goodEntries r

end

/- Fuel bound for the decoder's recursion on the encoding of a value. -/
mutual

def need : GoVal → Nat
  | .vnil => 1
  | .vint _ => 1
  | .vstr _ => 1
  | .vlist xs => 2 + needItems xs
  | .vmap m => 2 + needPairs m

def needItems : List GoVal → Nat
  | [] => 2
  | x :: xs => 1 + need x + needItems xs

def needPairs : List (List Nat × GoVal) → Nat
  | [] => 2
  | (_, v) :: r => 1 + need v + needPairs r

end

/-- The bytes an encoded dict body carries, entry by entry: used to relate
`encodeEntries` (which walks sorted keys and looks each one up) to the entry
list it effectively serializes. -/
def encPairs : List (List Nat × GoVal) → Option (List Nat)
  | [] => some []
  | (k, v) :: r => do
    let b ← encodeObject v
    let bs ← encPairs r
    some (encodeString k ++ b ++ bs)

/-- A byte on which `nextObject`'s dispatch hits the `default` branch. -/
def badByte (c : Nat) : Bool :=
  !(c = 105 || (48 ≤ c && c ≤ 57) || c = 108 || c = 100)

/-! ## Decimal digits and `atoi` -/

theorem digitsVal_append_one (xs : List Nat) (c : Nat) :
    digitsVal (xs ++ [c]) = 10 * digitsVal xs + (c - 48) := by
  unfold digitsVal
  rw [List.foldl_append]
  rfl

theorem natDigitsAux_spec : ∀ f n, n < f →
    natDigitsAux f n ≠ [] ∧ (∀ c ∈ natDigitsAux f n, 48 ≤ c ∧ c ≤ 57) ∧
      digitsVal (natDigitsAux f n) = n := by
  intro f
  induction f with
  | zero => omega
  | succ f ih =>
    intro n hn
    unfold natDigitsAux
    by_cases h10 : n < 10
    · simp only [if_pos h10]
      refine ⟨by simp, ?_, ?_⟩
      · intro c hc; simp at hc; omega
      · unfold digitsVal; simp
    · simp only [if_neg h10]
      have hrec := ih (n / 10) (by omega)
      refine ⟨by simp [hrec.1], ?_, ?_⟩
      · intro c hc
        rcases List.mem_append.mp hc with h | h
        · exact hrec.2.1 c h
        · simp at h; omega
      · rw [digitsVal_append_one, hrec.2.2]
        omega

theorem natDigits_ne_nil (n : Nat) : natDigits n ≠ [] :=
  (natDigitsAux_spec (n + 1) n (by omega)).1

theorem natDigits_digits (n : Nat) : ∀ c ∈ natDigits n, 48 ≤ c ∧ c ≤ 57 :=
  (natDigitsAux_spec (n + 1) n (by omega)).2.1

theorem digitsVal_natDigits (n : Nat) : digitsVal (natDigits n) = n :=
  (natDigitsAux_spec (n + 1) n (by omega)).2.2

theorem allDigits_natDigits (n : Nat) : allDigits (natDigits n) = true := by
  unfold allDigits
  rw [List.all_eq_true]
  intro c hc
  have := natDigits_digits n c hc
  simp
  omega

theorem atoi_of_digits (c : Nat) (t : List Nat) (h45 : ¬(c = 45 ∨ c = 43))
    (hall : allDigits (c :: t) = true) :
    atoi (c :: t) =
      if (digitsVal (c :: t) : Int) > 2 ^ 63 - 1 then none
      else some (digitsVal (c :: t) : Int) := by
  simp only [atoi, if_neg h45, hall, Bool.not_true, Bool.false_eq_true, if_false]

theorem atoi_neg_digits (t : List Nat) (hne : t ≠ []) (hall : allDigits t = true) :
    atoi (45 :: t) =
      if -(digitsVal t : Int) < -(2 ^ 63) ∨ -(digitsVal t : Int) > 2 ^ 63 - 1 then none
      else some (-(digitsVal t : Int)) := by
  have h2 : (t.isEmpty || !allDigits t) = false := by
    cases t with
    | nil => exact absurd rfl hne
    | cons a b => rw [hall]; rfl
  have h45 : ((45 : Nat) = 45 ∨ (45 : Nat) = 43) := Or.inl rfl
  simp only [atoi, if_pos h45, h2, Bool.false_eq_true, if_false]
  simp

theorem atoi_natDigits (n : Nat) (h : (n : Int) ≤ 2 ^ 63 - 1) :
    atoi (natDigits n) = some (n : Int) := by
  cases hD : natDigits n with
  | nil => exact absurd hD (natDigits_ne_nil n)
  | cons c t =>
    have hc : 48 ≤ c ∧ c ≤ 57 := natDigits_digits n c (by rw [hD]; simp)
    have hall : allDigits (c :: t) = true := by rw [← hD]; exact allDigits_natDigits n
    have hval : digitsVal (c :: t) = n := by rw [← hD]; exact digitsVal_natDigits n
    rw [atoi_of_digits c t (by omega) hall, hval, if_neg (by omega)]

theorem atoi_natDigits_overflow (n : Nat) (h : (n : Int) > 2 ^ 63 - 1) :
    atoi (natDigits n) = none := by
  cases hD : natDigits n with
  | nil => exact absurd hD (natDigits_ne_nil n)
  | cons c t =>
    have hc : 48 ≤ c ∧ c ≤ 57 := natDigits_digits n c (by rw [hD]; simp)
    have hall : allDigits (c :: t) = true := by rw [← hD]; exact allDigits_natDigits n
    have hval : digitsVal (c :: t) = n := by rw [← hD]; exact digitsVal_natDigits n
    rw [atoi_of_digits c t (by omega) hall, hval, if_pos (by omega)]

theorem atoi_intDigits (n : Int) (h1 : -(2 ^ 63) ≤ n) (h2 : n ≤ 2 ^ 63 - 1) :
    atoi (intDigits n) = some n := by
  unfold intDigits
  by_cases hneg : n < 0
  · rw [if_pos hneg]
    have hm : (((-n).toNat : Int)) = -n := Int.toNat_of_nonneg (by omega)
    have hval : digitsVal (natDigits (-n).toNat) = (-n).toNat := digitsVal_natDigits _
    rw [atoi_neg_digits _ (natDigits_ne_nil _) (allDigits_natDigits _), hval]
    rw [if_neg (by omega)]
    congr 1
    omega
  · rw [if_neg hneg]
    have hm : ((n.toNat : Int)) = n := Int.toNat_of_nonneg (by omega)
    rw [atoi_natDigits n.toNat (by omega), hm]

theorem atoi_intDigits_overflow (n : Int) (h : n < -(2 ^ 63) ∨ n > 2 ^ 63 - 1) :
    atoi (intDigits n) = none := by
  unfold intDigits
  by_cases hneg : n < 0
  · rw [if_pos hneg]
    have hm : (((-n).toNat : Int)) = -n := Int.toNat_of_nonneg (by omega)
    have hval : digitsVal (natDigits (-n).toNat) = (-n).toNat := digitsVal_natDigits _
    rw [atoi_neg_digits _ (natDigits_ne_nil _) (allDigits_natDigits _), hval]
    rw [if_pos (by omega)]
  · rw [if_neg hneg]
    exact atoi_natDigits_overflow n.toNat (by omega)

/-! ## Stream-access helpers -/

theorem appendCons (l1 : List Nat) (a : Nat) (l2 : List Nat) :
    l1 ++ a :: l2 = (l1 ++ [a]) ++ l2 := by simp

theorem byteAtPre (pre : List Nat) (c : Nat) (suf : List Nat) :
    (pre ++ c :: suf)[pre.length]? = some c := by
  rw [List.getElem?_append_right (le_refl _)]
  simp

theorem getDPre (pre : List Nat) (c : Nat) (suf : List Nat) :
    (pre ++ c :: suf).getD pre.length 0 = c := by
  rw [List.getD_eq_getElem?_getD, byteAtPre]
  rfl

theorem sliceGo_mid (pre mid rest : List Nat) :
    sliceGo (pre ++ mid ++ rest) pre.length (pre.length + mid.length) = mid := by
  unfold sliceGo
  have h1 : pre.length + mid.length = (pre ++ mid).length := (List.length_append _ _).symm
  rw [h1, List.take_left, List.drop_left]

/-! ## One-step unfolding of the scanners -/

theorem intScan_step (s : List Nat) (idx b : Nat) (hb : s[idx]? = some b) :
    intScan s idx =
      if b = 101 then .found idx
      else if (b < 48 ∨ b > 57) ∧ b ≠ 45 then .err (.invalidByte b)
      else if s.length ≤ idx + 1 then .err .noEndingE
      else intScan s (idx + 1) := by
  have hidx : idx < s.length := by
    by_contra hc
    rw [List.getElem?_eq_none (by omega)] at hb
    cases hb
  obtain ⟨m, hm⟩ : ∃ m, s.length + 1 - idx = m + 1 := ⟨s.length - idx, by omega⟩
  have hm2 : m = s.length + 1 - (idx + 1) := by omega
  unfold intScan
  rw [hm]
  simp only [intScanAux]
  rw [hb, hm2]

theorem colonScan_step (s : List Nat) (i b : Nat) (hb : s[i]? = some b) :
    colonScan s i =
      if b = 58 then .found i
      else if s.length ≤ i + 1 then .err .noStringFound
      else colonScan s (i + 1) := by
  have hi : i < s.length := by
    by_contra hc
    rw [List.getElem?_eq_none (by omega)] at hb
    cases hb
  obtain ⟨m, hm⟩ : ∃ m, s.length + 1 - i = m + 1 := ⟨s.length - i, by omega⟩
  have hm2 : m = s.length + 1 - (i + 1) := by omega
  unfold colonScan
  rw [hm]
  simp only [colonScanAux]
  rw [hb, hm2]

/-! ## Scanner runs over encoded digits -/

theorem intScan_run : ∀ (body pre rest : List Nat),
    (∀ c ∈ body, (48 ≤ c ∧ c ≤ 57) ∨ c = 45) →
    intScan (pre ++ body ++ 101 :: rest) pre.length = .found (pre.length + body.length) := by
  intro body
  induction body with
  | nil =>
    intro pre rest _
    have hb : (pre ++ [] ++ 101 :: rest)[pre.length]? = some 101 := by
      simpa using byteAtPre pre 101 rest
    rw [intScan_step _ _ 101 hb]
    simp
  | cons c body ih =>
    intro pre rest hc
    have hcd := hc c (by simp)
    have hb : (pre ++ c :: body ++ 101 :: rest)[pre.length]? = some c := by
      simpa using byteAtPre pre c (body ++ 101 :: rest)
    rw [intScan_step _ _ c hb]
    rw [if_neg (by omega), if_neg (by push_neg; omega)]
    rw [if_neg (by simp only [List.length_append, List.length_cons]; omega)]
    have hstep := ih (pre ++ [c]) rest (fun d hd => hc d (by simp [hd]))
    simp only [List.append_assoc, List.singleton_append, List.length_append,
      List.length_singleton] at hstep
    rw [show pre.length + (c :: body).length = pre.length + 1 + body.length by simp; omega]
    simp only [List.append_assoc, List.cons_append]
    exact hstep

theorem colonScan_run : ∀ (body pre rest : List Nat),
    (∀ c ∈ body, 48 ≤ c ∧ c ≤ 57) →
    colonScan (pre ++ body ++ 58 :: rest) pre.length = .found (pre.length + body.length) := by
  intro body
  induction body with
  | nil =>
    intro pre rest _
    have hb : (pre ++ [] ++ 58 :: rest)[pre.length]? = some 58 := by
      simpa using byteAtPre pre 58 rest
    rw [colonScan_step _ _ 58 hb]
    simp
  | cons c body ih =>
    intro pre rest hc
    have hcd := hc c (by simp)
    have hb : (pre ++ c :: body ++ 58 :: rest)[pre.length]? = some c := by
      simpa using byteAtPre pre c (body ++ 58 :: rest)
    rw [colonScan_step _ _ c hb]
    rw [if_neg (by omega)]
    rw [if_neg (by simp only [List.length_append, List.length_cons]; omega)]
    have hstep := ih (pre ++ [c]) rest (fun d hd => hc d (by simp [hd]))
    simp only [List.append_assoc, List.singleton_append, List.length_append,
      List.length_singleton] at hstep
    rw [show pre.length + (c :: body).length = pre.length + 1 + body.length by simp; omega]
    simp only [List.append_assoc, List.cons_append]
    exact hstep

/-! ## Decoding the encodings of atoms -/

theorem encodeString_eq (s : List Nat) : encodeString s = natDigits s.length ++ 58 :: s := by
  unfold encodeString
  rcases s with _ | ⟨a, t⟩ <;> simp

theorem encodeInteger_length (n : Int) :
    (encodeInteger n).length = (intDigits n).length + 2 := by
  simp [encodeInteger]

theorem intDigits_bytes (n : Int) : ∀ c ∈ intDigits n, (48 ≤ c ∧ c ≤ 57) ∨ c = 45 := by
  unfold intDigits
  split
  · intro c hc
    rcases List.mem_cons.mp hc with h | h
    · right; exact h
    · left; exact natDigits_digits _ c h
  · intro c hc
    left
    exact natDigits_digits _ c hc

theorem intDigits_ne_nil (n : Int) : intDigits n ≠ [] := by
  unfold intDigits
  split
  · simp
  · exact natDigits_ne_nil _

theorem nextInteger_enc (n : Int) (h1 : -(2 ^ 63) ≤ n) (h2 : n ≤ 2 ^ 63 - 1)
    (pre rest : List Nat) (cons : Bool) (last : Nat) :
    nextInteger ⟨pre ++ encodeInteger n ++ rest, pre.length, cons, last⟩ =
      .ret n none ⟨pre ++ encodeInteger n ++ rest,
        pre.length + (encodeInteger n).length, cons, last⟩ := by
  have hposeq : pre.length + 1 + (intDigits n).length + 1 =
      pre.length + (encodeInteger n).length := by
    rw [encodeInteger_length]; omega
  have hs : pre ++ encodeInteger n ++ rest
      = pre ++ 105 :: ((intDigits n) ++ 101 :: rest) := by
    simp [encodeInteger]
  rw [hs]
  have hscan : intScan (pre ++ 105 :: ((intDigits n) ++ 101 :: rest)) (pre.length + 1)
      = .found (pre.length + 1 + (intDigits n).length) := by
    have h := intScan_run (intDigits n) (pre ++ [105]) rest (intDigits_bytes n)
    simp only [List.append_assoc, List.singleton_append, List.length_append,
      List.length_singleton] at h
    exact h
  have hslice : sliceGo (pre ++ 105 :: ((intDigits n) ++ 101 :: rest)) (pre.length + 1)
      (pre.length + 1 + (intDigits n).length) = intDigits n := by
    have h := sliceGo_mid (pre ++ [105]) (intDigits n) (101 :: rest)
    simp only [List.append_assoc, List.singleton_append, List.length_append,
      List.length_singleton] at h
    exact h
  unfold nextInteger
  rw [if_pos (by simp only [List.length_append, List.length_cons]; omega)]
  rw [getDPre]
  rw [if_neg (by simp)]
  simp only [hscan, hslice, atoi_intDigits n h1 h2, hposeq]

theorem nextInteger_overflow (n : Int) (h : n < -(2 ^ 63) ∨ n > 2 ^ 63 - 1)
    (pre rest : List Nat) (cons : Bool) (last : Nat) :
    nextInteger ⟨pre ++ encodeInteger n ++ rest, pre.length, cons, last⟩ =
      .ret 0 (some .atoiErr) ⟨pre ++ encodeInteger n ++ rest, pre.length, cons, last⟩ := by
  have hs : pre ++ encodeInteger n ++ rest
      = pre ++ 105 :: ((intDigits n) ++ 101 :: rest) := by
    simp [encodeInteger]
  rw [hs]
  have hscan : intScan (pre ++ 105 :: ((intDigits n) ++ 101 :: rest)) (pre.length + 1)
      = .found (pre.length + 1 + (intDigits n).length) := by
    have h := intScan_run (intDigits n) (pre ++ [105]) rest (intDigits_bytes n)
    simp only [List.append_assoc, List.singleton_append, List.length_append,
      List.length_singleton] at h
    exact h
  have hslice : sliceGo (pre ++ 105 :: ((intDigits n) ++ 101 :: rest)) (pre.length + 1)
      (pre.length + 1 + (intDigits n).length) = intDigits n := by
    have h := sliceGo_mid (pre ++ [105]) (intDigits n) (101 :: rest)
    simp only [List.append_assoc, List.singleton_append, List.length_append,
      List.length_singleton] at h
    exact h
  unfold nextInteger
  rw [if_pos (by simp only [List.length_append, List.length_cons]; omega)]
  rw [getDPre]
  rw [if_neg (by simp)]
  simp only [hscan, hslice, atoi_intDigits_overflow n h]

theorem nextString_enc (k : List Nat) (hk : k.length ≤ 2 ^ 63 - 1)
    (pre rest : List Nat) (cons : Bool) (last : Nat) :
    nextString ⟨pre ++ encodeString k ++ rest, pre.length, cons, last⟩ =
      .ret k none ⟨pre ++ encodeString k ++ rest,
        pre.length + (encodeString k).length, cons, last⟩ := by
  have hposeq : pre.length + (natDigits k.length).length + 1 + k.length =
      pre.length + (encodeString k).length := by
    rw [encodeString_eq]
    simp only [List.length_append, List.length_cons]
    omega
  cases hD : natDigits k.length with
  | nil => exact absurd hD (natDigits_ne_nil _)
  | cons c t =>
    have hcd : 48 ≤ c ∧ c ≤ 57 := natDigits_digits _ c (by rw [hD]; simp)
    have hs : pre ++ encodeString k ++ rest
        = pre ++ c :: (t ++ 58 :: (k ++ rest)) := by
      rw [encodeString_eq, hD]
      simp
    have hs2 : pre ++ c :: (t ++ 58 :: (k ++ rest))
        = pre ++ (c :: t) ++ 58 :: (k ++ rest) := by simp
    have hscan : colonScan (pre ++ c :: (t ++ 58 :: (k ++ rest))) pre.length
        = .found (pre.length + (t.length + 1)) := by
      rw [hs2]
      have h := colonScan_run (c :: t) pre (k ++ rest)
        (by rw [← hD]; exact natDigits_digits _)
      simpa using h
    have hslice : sliceGo (pre ++ c :: (t ++ 58 :: (k ++ rest))) pre.length
        (pre.length + (t.length + 1)) = c :: t := by
      rw [hs2]
      have h := sliceGo_mid pre (c :: t) (58 :: (k ++ rest))
      simpa using h
    have hatoi : atoi (c :: t) = some (k.length : Int) := by
      rw [← hD]
      exact atoi_natDigits _ (by omega)
    have hslice2 : sliceGo (pre ++ c :: (t ++ 58 :: (k ++ rest)))
        (pre.length + (t.length + 1) + 1)
        (pre.length + (t.length + 1) + 1 + (k.length : Int).toNat) = k := by
      rw [show (k.length : Int).toNat = k.length from by omega]
      have h := sliceGo_mid (pre ++ (c :: t) ++ [58]) k rest
      have e1 : (pre ++ (c :: t) ++ [58]) ++ k ++ rest
          = pre ++ c :: (t ++ 58 :: (k ++ rest)) := by simp
      have e2 : (pre ++ (c :: t) ++ [58]).length = pre.length + (t.length + 1) + 1 := by
        simp only [List.length_append, List.length_cons, List.length_singleton,
          List.length_nil]
      rw [e1, e2] at h
      exact h
    rw [hs]
    unfold nextString
    rw [if_pos (by simp only [List.length_append, List.length_cons]; omega)]
    rw [getDPre]
    rw [if_neg (by omega)]
    simp only [hscan, hslice, hatoi]
    rw [if_neg (by simp only [List.length_append, List.length_cons]; push_cast; omega)]
    simp only [hslice2]
    have hfin : pre.length + (t.length + 1) + 1 + (k.length : Int).toNat =
        pre.length + (encodeString k).length := by
      rw [encodeString_eq, hD]
      simp only [List.length_append, List.length_cons]
      omega
    rw [hfin]

/-! ## The key order and sorted entries -/

theorem lexLe_total : ∀ a b : List Nat, lexLe a b = true ∨ lexLe b a = true := by
  intro a
  induction a with
  | nil => intro b; left; rfl
  | cons x xs ih =>
    intro b
    cases b with
    | nil => right; rfl
    | cons y ys =>
      unfold lexLe
      rcases Nat.lt_trichotomy x y with h | h | h
      · left; rw [if_pos h]
      · subst h
        rw [if_neg (by omega), if_neg (by omega)]
        rcases ih ys with h2 | h2
        · left; exact h2
        · right; rw [if_neg (by omega), if_neg (by omega)]; exact h2
      · right; rw [if_pos h]

theorem lexLe_trans : ∀ a b c : List Nat,
    lexLe a b = true → lexLe b c = true → lexLe a c = true := by
  intro a
  induction a with
  | nil => intro b c _ _; rfl
  | cons x xs ih =>
    intro b c hab hbc
    cases b with
    | nil => exact absurd hab (by simp [lexLe])
    | cons y ys =>
      cases c with
      | nil => exact absurd hbc (by simp [lexLe])
      | cons z zs =>
        unfold lexLe at hab hbc ⊢
        by_cases hxy : x < y
        · rw [if_pos hxy] at hab
          by_cases hyz : y < z
          · rw [if_pos (by omega)]
          · rw [if_neg hyz] at hbc
            by_cases hzy : z < y
            · rw [if_pos hzy] at hbc; cases hbc
            · rw [if_pos (by omega)]
        · rw [if_neg hxy] at hab
          by_cases hyx : y < x
          · rw [if_pos hyx] at hab; cases hab
          · rw [if_neg hyx] at hab
            have hxe : x = y := by omega
            subst hxe
            by_cases hyz : x < z
            · rw [if_pos hyz]
            · rw [if_neg hyz] at hbc ⊢
              by_cases hzy : z < x
              · rw [if_pos hzy] at hbc; cases hbc
              · rw [if_neg hzy] at hbc ⊢
                exact ih ys zs hab hbc

theorem lexLe_antisymm : ∀ a b : List Nat,
    lexLe a b = true → lexLe b a = true → a = b := by
  intro a
  induction a with
  | nil =>
    intro b _ hba
    cases b with
    | nil => rfl
    | cons y ys => exact absurd hba (by simp [lexLe])
  | cons x xs ih =>
    intro b hab hba
    cases b with
    | nil => exact absurd hab (by simp [lexLe])
    | cons y ys =>
      unfold lexLe at hab hba
      by_cases hxy : x < y
      · rw [if_neg (by omega), if_pos hxy] at hba; cases hba
      · rw [if_neg hxy] at hab
        by_cases hyx : y < x
        · rw [if_pos hyx] at hab; cases hab
        · rw [if_neg hyx] at hab
          rw [if_neg (by omega), if_neg (by omega)] at hba
          have hxe : x = y := by omega
          rw [hxe, ih ys hab hba]

instance : IsTotal (List Nat) (fun a b => lexLe a b = true) := ⟨lexLe_total⟩
instance : IsTrans (List Nat) (fun a b => lexLe a b = true) := ⟨lexLe_trans⟩
instance : IsAntisymm (List Nat) (fun a b => lexLe a b = true) := ⟨lexLe_antisymm⟩

instance : IsTotal (List Nat × GoVal) entLe := ⟨fun p q => lexLe_total p.1 q.1⟩
instance : IsTrans (List Nat × GoVal) entLe :=
  ⟨fun p q r => lexLe_trans p.1 q.1 r.1⟩

theorem sortKeys_sorted (ks : List (List Nat)) :
    (sortKeys ks).Sorted (fun a b => lexLe a b = true) :=
  List.sorted_insertionSort _ ks

theorem sortKeys_perm (ks : List (List Nat)) : (sortKeys ks).Perm ks :=
  List.perm_insertionSort _ ks

theorem sortEntries_sorted (m : List (List Nat × GoVal)) :
    (sortEntries m).Sorted entLe :=
  List.sorted_insertionSort _ m

theorem sortEntries_perm (m : List (List Nat × GoVal)) : (sortEntries m).Perm m :=
  List.perm_insertionSort _ m

/-- Two entry lists that are permutations of each other, both sorted by key,
with no duplicate keys, are equal. -/
theorem sorted_nodupk_eq (l1 l2 : List (List Nat × GoVal)) (h : l1.Perm l2)
    (s1 : l1.Sorted entLe) (s2 : l2.Sorted entLe)
    (hn : (l1.map Prod.fst).Nodup) : l1 = l2 := by
  have hn2 : (l2.map Prod.fst).Nodup := (h.map Prod.fst).nodup_iff.mp hn
  set r : (List Nat × GoVal) → (List Nat × GoVal) → Prop :=
    fun p q => (lexLe p.1 q.1 = true) ∧ p.1 ≠ q.1 with hr
  haveI : IsAntisymm (List Nat × GoVal) r :=
    ⟨fun p q hpq hqp => absurd (lexLe_antisymm _ _ hpq.1 hqp.1) hpq.2⟩
  have key : ∀ l : List (List Nat × GoVal), l.Sorted entLe →
      (l.map Prod.fst).Nodup → l.Sorted r := by
    intro l hs hnd
    have hne : l.Pairwise (fun p q : List Nat × GoVal => p.1 ≠ q.1) :=
      (List.pairwise_map).mp hnd
    exact (List.Pairwise.and hs hne : _)
  exact List.eq_of_perm_of_sorted (r := r) h (key l1 s1 hn) (key l2 s2 hn2)

theorem mapLookup_of_mem (m : List (List Nat × GoVal)) (k : List Nat) (v : GoVal)
    (hm : (k, v) ∈ m) (hn : (m.map Prod.fst).Nodup) : mapLookup m k = some v := by
  induction m with
  | nil => cases hm
  | cons p rest ih =>
    obtain ⟨k', v'⟩ := p
    simp only [List.map_cons, List.nodup_cons] at hn
    rcases List.mem_cons.mp hm with h | h
    · cases h
      simp [mapLookup]
    · have hkne : k' ≠ k := by
        intro he
        subst he
        exact hn.1 (List.mem_map.mpr ⟨(k', v), h, rfl⟩)
      simp only [mapLookup, if_neg hkne]
      exact ih h hn.2

theorem mapInsert_append (m : List (List Nat × GoVal)) (k : List Nat) (v : GoVal)
    (h : ¬ k ∈ m.map Prod.fst) : mapInsert m k v = m ++ [(k, v)] := by
  induction m with
  | nil => rfl
  | cons p rest ih =>
    obtain ⟨k', v'⟩ := p
    simp only [List.map_cons, List.mem_cons] at h
    push_neg at h
    simp only [mapInsert]
    rw [if_neg (show ¬ k' = k from fun he => h.1 (Eq.symm he))]
    rw [ih h.2]
    simp

/-- The entry list that `encodeEntries` looks up, key by key. -/
def esFromKeys (m : List (List Nat × GoVal)) (ks : List (List Nat)) :
    List (List Nat × GoVal) :=
  ks.map (fun k => (k, (mapLookup m k).getD .vnil))

theorem encodeEntries_eq_encPairs (p : List Nat × GoVal)
    (rest : List (List Nat × GoVal)) :
    ∀ ks, encodeEntries p rest ks = encPairs (esFromKeys (p :: rest) ks) := by
  intro ks
  induction ks with
  | nil => simp [encodeEntries, encPairs, esFromKeys]
  | cons k ks ih =>
    rw [encodeEntries, encPairs.eq_def]
    simp only [esFromKeys, List.map_cons]
    rw [ih]
    rfl

theorem esFromKeys_self (m : List (List Nat × GoVal))
    (hn : (m.map Prod.fst).Nodup) :
    ∀ l : List (List Nat × GoVal), (∀ e ∈ l, e ∈ m) →
      esFromKeys m (l.map Prod.fst) = l := by
  intro l
  induction l with
  | nil => intro _; rfl
  | cons e l ih =>
    intro hmem
    obtain ⟨k, v⟩ := e
    have h1 : mapLookup m k = some v :=
      mapLookup_of_mem m k v (hmem (k, v) (by simp)) hn
    simp only [esFromKeys, List.map_cons] at ih ⊢
    rw [h1]
    simp only [Option.getD_some]
    rw [ih (fun e he => hmem e (List.mem_cons_of_mem _ he))]

theorem sortKeys_map_fst (m : List (List Nat × GoVal)) :
    sortKeys (m.map Prod.fst) = (sortEntries m).map Prod.fst := by
  refine List.eq_of_perm_of_sorted (r := fun a b => lexLe a b = true) ?_ ?_ ?_
  · exact (sortKeys_perm _).trans ((sortEntries_perm m).map Prod.fst).symm
  · exact sortKeys_sorted _
  · exact (List.pairwise_map).mpr (sortEntries_sorted m)

/-- `encodeDict` on a non-empty map with unique keys is `d` + the byte image
of its key-sorted entry list + `e`. -/
theorem encodeDict_encPairs (m : List (List Nat × GoVal)) (hne : m ≠ [])
    (hn : (m.map Prod.fst).Nodup) :
    encodeDict m = (do
      let bs ← encPairs (sortEntries m)
      some (100 :: (bs ++ [101]))) := by
  cases m with
  | nil => exact absurd rfl hne
  | cons p rest =>
    rw [encodeDict]
    rw [encodeEntries_eq_encPairs, sortKeys_map_fst]
    rw [esFromKeys_self (p :: rest) hn (sortEntries (p :: rest))
      (fun e he => (sortEntries_perm (p :: rest)).mem_iff.mp he)]

/-! ## Canonicalisation commutes with entry sorting -/

/-- Canonicalise the value of one entry. -/
def centry (p : List Nat × GoVal) : List Nat × GoVal := (p.1, canon p.2)

theorem canonList_eq_map : ∀ xs, canonList xs = xs.map canon
  | [] => rfl
  | x :: xs => by rw [canonList, canonList_eq_map xs]; rfl

theorem canonEntries_eq_map : ∀ m, canonEntries m = m.map centry
  | [] => rfl
  | (k, v) :: m => by rw [canonEntries, canonEntries_eq_map m]; rfl

theorem orderedInsert_centry (e : List Nat × GoVal) :
    ∀ m, List.orderedInsert entLe (centry e) (m.map centry) =
      (List.orderedInsert entLe e m).map centry := by
  intro m
  induction m with
  | nil => rfl
  | cons x m ih =>
    simp only [List.map_cons, List.orderedInsert]
    by_cases h : entLe e x
    · rw [if_pos h, if_pos (show entLe (centry e) (centry x) from h)]
      rfl
    · rw [if_neg h, if_neg (show ¬ entLe (centry e) (centry x) from h)]
      rw [ih]
      rfl

theorem sortEntries_map_centry :
    ∀ m, (sortEntries m).map centry = sortEntries (m.map centry) := by
  intro m
  induction m with
  | nil => rfl
  | cons e m ih =>
    simp only [sortEntries, List.insertionSort, List.map_cons] at ih ⊢
    rw [← ih, orderedInsert_centry]

/-! ## Heads of encodings, goodness projections -/

theorem encodeString_head (s : List Nat) :
    ∃ c t, encodeString s = c :: t ∧ 48 ≤ c ∧ c ≤ 57 := by
  cases hD : natDigits s.length with
  | nil => exact absurd hD (natDigits_ne_nil _)
  | cons c t =>
    have hc := natDigits_digits s.length c (by rw [hD]; simp)
    exact ⟨c, t ++ 58 :: s, by rw [encodeString_eq, hD]; simp, hc.1, hc.2⟩

theorem good_vlist_parts (xs : List GoVal) (h : good (.vlist xs) = true) :
    xs ≠ [] ∧ goodList xs = true := by
  rw [good] at h
  simp only [Bool.and_eq_true, Bool.not_eq_true'] at h
  exact ⟨by simpa using h.1, h.2⟩

theorem good_vmap_parts (m : List (List Nat × GoVal)) (h : good (.vmap m) = true) :
    m ≠ [] ∧ (m.map Prod.fst).Nodup ∧ goodEntries m = true := by
  rw [good] at h
  simp only [Bool.and_eq_true, Bool.not_eq_true', decide_eq_true_eq] at h
  exact ⟨by simpa using h.1.1, h.1.2, h.2⟩

theorem goodList_mem : ∀ xs, goodList xs = true → ∀ x ∈ xs, good x = true := by
  intro xs
  induction xs with
  | nil => intro _ x hx; cases hx
  | cons y ys ih =>
    intro h x hx
    rw [goodList, Bool.and_eq_true] at h
    rcases List.mem_cons.mp hx with h1 | h1
    · rw [h1]; exact h.1
    · exact ih h.2 x h1

theorem goodEntries_mem : ∀ m, goodEntries m = true →
    ∀ e ∈ m, e.1.length ≤ 2 ^ 63 - 1 ∧ good e.2 = true := by
  intro m
  induction m with
  | nil => intro _ e he; cases he
  | cons p rest ih =>
    obtain ⟨k, v⟩ := p
    intro h e he
    rw [goodEntries, Bool.and_eq_true, Bool.and_eq_true] at h
    rcases List.mem_cons.mp he with h1 | h1
    · rw [h1]; exact ⟨by simpa using h.1.1, h.1.2⟩
    · exact ih h.2 e h1

theorem encodeObject_head (v : GoVal) (b : List Nat) (hg : good v = true)
    (hb : encodeObject v = some b) :
    ∃ c t, b = c :: t ∧ badByte c = false ∧ c ≠ 101 := by
  cases v with
  | vnil => rw [good] at hg; cases hg
  | vint n =>
    rw [show encodeObject (.vint n) = some (encodeInteger n) from by rw [encodeObject]] at hb
    refine ⟨105, intDigits n ++ [101], ?_, by rfl, by omega⟩
    cases hb
    rfl
  | vstr s =>
    rw [show encodeObject (.vstr s) = some (encodeString s) from by rw [encodeObject]] at hb
    obtain ⟨c, t, he, hc1, hc2⟩ := encodeString_head s
    cases hb
    refine ⟨c, t, he, ?_, by omega⟩
    simp only [badByte, Bool.not_eq_true', Bool.or_eq_true, Bool.and_eq_true,
      decide_eq_true_eq]
    simp
    omega
  | vlist xs =>
    obtain ⟨hne, hgl⟩ := good_vlist_parts xs hg
    cases xs with
    | nil => exact absurd rfl hne
    | cons x xs =>
      rw [show encodeObject (.vlist (x :: xs)) = encodeList (x :: xs) from by
        rw [encodeObject]] at hb
      rw [encodeList] at hb
      cases hE : encodeItems (x :: xs) with
      | none => rw [hE] at hb; cases hb
      | some bs =>
        rw [hE] at hb
        simp only [Option.bind_some, Option.some.injEq, Option.bind_eq_bind] at hb
        refine ⟨108, bs ++ [101], ?_, by rfl, by omega⟩
        simp at hb
        rw [← hb]
  | vmap m =>
    obtain ⟨hne, hnd, hge⟩ := good_vmap_parts m hg
    cases m with
    | nil => exact absurd rfl hne
    | cons p rest =>
      rw [show encodeObject (.vmap (p :: rest)) = encodeDict (p :: rest) from by
        rw [encodeObject]] at hb
      rw [encodeDict] at hb
      cases hE : encodeEntries p rest (sortKeys ((p :: rest).map Prod.fst)) with
      | none => rw [hE] at hb; cases hb
      | some bs =>
        rw [hE] at hb
        refine ⟨100, bs ++ [101], ?_, by rfl, by omega⟩
        simp at hb
        rw [← hb]

/-! ## Structural equality up to dict entry order -/

/-- Equality of values in the sense of the spec's data model: integers,
strings and lists (elementwise, order preserved) literally, dicts up to entry
order: `m2` is a permutation of an entry list `m2'` with the same key sequence
as `m1` and values equivalent entry by entry. -/
inductive ValEquiv : GoVal → GoVal → Prop where
  | vnil : ValEquiv .vnil .vnil
  | vint (n : Int) : ValEquiv (.vint n) (.vint n)
  | vstr (s : List Nat) : ValEquiv (.vstr s) (.vstr s)
  | vlist (xs ys : List GoVal) : List.Forall₂ ValEquiv xs ys →
      ValEquiv (.vlist xs) (.vlist ys)
  | vmap (m1 m2 m2' : List (List Nat × GoVal)) : m2.Perm m2' →
      m1.map Prod.fst = m2'.map Prod.fst →
      List.Forall₂ ValEquiv (m1.map Prod.snd) (m2'.map Prod.snd) →
      ValEquiv (.vmap m1) (.vmap m2)

theorem sizeOf_snd_lt (m : List (List Nat × GoVal)) (e : List Nat × GoVal)
    (he : e ∈ m) : sizeOf e.2 < sizeOf m := by
  have h1 : sizeOf e < sizeOf m := List.sizeOf_lt_of_mem he
  obtain ⟨k, v⟩ := e
  simp at h1 ⊢
  omega

theorem canon_vlist (xs : List GoVal) : canon (.vlist xs) = .vlist (canonList xs) := by
  rw [canon.eq_def]

theorem canon_vmap (m : List (List Nat × GoVal)) :
    canon (.vmap m) = .vmap (sortEntries (canonEntries m)) := by
  rw [canon.eq_def]

theorem valEquiv_canon : ∀ v, ValEquiv v (canon v) := by
  have main : ∀ (n : Nat) (v : GoVal), sizeOf v ≤ n → ValEquiv v (canon v) := by
    intro n
    induction n with
    | zero => intro v hv; exfalso; cases v <;> simp at hv
    | succ n ih =>
      intro v hsz
      cases v with
      | vnil => exact .vnil
      | vint k => exact .vint k
      | vstr s => exact .vstr s
      | vlist xs =>
        rw [canon_vlist]
        refine .vlist xs (canonList xs) ?_
        rw [canonList_eq_map]
        have hmem : ∀ x ∈ xs, ValEquiv x (canon x) := by
          intro x hx
          have h1 : sizeOf x < sizeOf xs := List.sizeOf_lt_of_mem hx
          have h2 : sizeOf (GoVal.vlist xs) = 1 + sizeOf xs := by simp
          exact ih x (by omega)
        clear hsz ih
        induction xs with
        | nil => exact .nil
        | cons y ys ihy =>
          exact .cons (hmem y (by simp))
            (ihy (fun x hx => hmem x (List.mem_cons_of_mem _ hx)))
      | vmap m =>
        rw [canon_vmap]
        refine .vmap m (sortEntries (canonEntries m)) (canonEntries m)
          (sortEntries_perm _) ?_ ?_
        · rw [canonEntries_eq_map]
          rw [List.map_map]
          rfl
        · rw [canonEntries_eq_map, List.map_map]
          have hmem : ∀ e ∈ m, ValEquiv (Prod.snd e) (canon (Prod.snd e)) := by
            intro e he
            have h1 := sizeOf_snd_lt m e he
            have h2 : sizeOf (GoVal.vmap m) = 1 + sizeOf m := by simp
            exact ih e.2 (by omega)
          clear hsz ih
          induction m with
          | nil => exact .nil
          | cons p rest ihm =>
            obtain ⟨k, v⟩ := p
            simp only [List.map_cons]
            exact .cons (hmem (k, v) (by simp))
              (ihm (fun e he => hmem e (List.mem_cons_of_mem _ he)))
  intro v
  exact main (sizeOf v) v le_rfl

/-! ## Fuel bounds -/

theorem needPairs_eq_sum : ∀ m, needPairs m =
    (m.map (fun e => 1 + need e.2)).sum + 2 := by
  intro m
  induction m with
  | nil => rfl
  | cons p rest ih =>
    obtain ⟨k, v⟩ := p
    rw [needPairs, ih]
    simp only [List.map_cons, List.sum_cons]
    omega

theorem needPairs_perm (m1 m2 : List (List Nat × GoVal)) (h : m1.Perm m2) :
    needPairs m1 = needPairs m2 := by
  rw [needPairs_eq_sum, needPairs_eq_sum, (h.map (fun e => 1 + need e.2)).sum_eq]

theorem need_le : ∀ (n : Nat) (v : GoVal), sizeOf v ≤ n → ∀ b, good v = true →
    encodeObject v = some b → need v + 2 ≤ 4 * b.length := by
  intro n
  induction n with
  | zero => intro v hv; exfalso; cases v <;> simp at hv
  | succ n ih =>
    intro v hsz b hg hb
    cases v with
    | vnil => rw [good] at hg; cases hg
    | vint k =>
      rw [show encodeObject (.vint k) = some (encodeInteger k) from by rw [encodeObject]] at hb
      cases hb
      have h1 : (intDigits k).length ≥ 1 :=
        List.length_pos.mpr (intDigits_ne_nil k)
      rw [need, encodeInteger_length]
      omega
    | vstr s =>
      rw [show encodeObject (.vstr s) = some (encodeString s) from by rw [encodeObject]] at hb
      cases hb
      have h1 : (natDigits s.length).length ≥ 1 :=
        List.length_pos.mpr (natDigits_ne_nil _)
      rw [need, encodeString_eq]
      simp only [List.length_append, List.length_cons]
      omega
    | vlist xs =>
      obtain ⟨hne, hgl⟩ := good_vlist_parts xs hg
      have hszi : ∀ x ∈ xs, sizeOf x ≤ n := by
        intro x hx
        have h1 : sizeOf x < sizeOf xs := List.sizeOf_lt_of_mem hx
        have h2 : sizeOf (GoVal.vlist xs) = 1 + sizeOf xs := by simp
        omega
      have inner : ∀ (ys : List GoVal), (∀ y ∈ ys, sizeOf y ≤ n) →
          goodList ys = true → ∀ bs, encodeItems ys = some bs →
          needItems ys ≤ 4 * bs.length + 2 := by
        intro ys
        induction ys with
        | nil =>
          intro _ _ bs hE
          rw [show encodeItems [] = some [] from by rw [encodeItems]] at hE
          cases hE
          rw [needItems]
          simp
        | cons y ys ihy =>
          intro hs hgl' bs hE
          rw [goodList, Bool.and_eq_true] at hgl'
          rw [encodeItems] at hE
          cases hEy : encodeObject y with
          | none => rw [hEy] at hE; cases hE
          | some by1 =>
            rw [hEy] at hE
            cases hEr : encodeItems ys with
            | none => rw [hEr] at hE; cases hE
            | some bs1 =>
              rw [hEr] at hE
              simp at hE
              have h1 := ih y (hs y (by simp)) by1 hgl'.1 hEy
              have h2 := ihy (fun z hz => hs z (List.mem_cons_of_mem _ hz))
                hgl'.2 bs1 hEr
              rw [needItems, ← hE]
              simp only [List.length_append]
              omega
      cases xs with
      | nil => exact absurd rfl hne
      | cons x xs =>
        rw [show encodeObject (.vlist (x :: xs)) = encodeList (x :: xs) from by
          rw [encodeObject]] at hb
        rw [encodeList] at hb
        cases hE : encodeItems (x :: xs) with
        | none => rw [hE] at hb; cases hb
        | some bs =>
          rw [hE] at hb
          simp at hb
          have h1 := inner (x :: xs) hszi hgl bs hE
          rw [need, ← hb]
          simp only [List.length_cons, List.length_append, List.length_singleton]
          omega
    | vmap m =>
      obtain ⟨hne, hnd, hge⟩ := good_vmap_parts m hg
      have hszi : ∀ e ∈ m, sizeOf (Prod.snd e) ≤ n := by
        intro e he
        have h1 := sizeOf_snd_lt m e he
        have h2 : sizeOf (GoVal.vmap m) = 1 + sizeOf m := by simp
        omega
      have inner : ∀ (es : List (List Nat × GoVal)),
          (∀ e ∈ es, sizeOf (Prod.snd e) ≤ n ∧ good (Prod.snd e) = true) →
          ∀ bs, encPairs es = some bs → needPairs es ≤ 4 * bs.length + 2 := by
        intro es
        induction es with
        | nil =>
          intro _ bs hE
          rw [show encPairs [] = some [] from rfl] at hE
          cases hE
          rw [needPairs]
          simp
        | cons e es ihe =>
          obtain ⟨k, v⟩ := e
          intro hs bs hE
          rw [encPairs] at hE
          cases hEv : encodeObject v with
          | none => rw [hEv] at hE; cases hE
          | some bv =>
            rw [hEv] at hE
            cases hEr : encPairs es with
            | none => rw [hEr] at hE; cases hE
            | some bs1 =>
              rw [hEr] at hE
              simp at hE
              have hm := hs (k, v) (by simp)
              have h1 := ih v hm.1 bv hm.2 hEv
              have h2 := ihe (fun e he => hs e (List.mem_cons_of_mem _ he)) bs1 hEr
              rw [needPairs, ← hE]
              simp only [List.length_append]
              omega
      cases m with
      | nil => exact absurd rfl hne
      | cons p rest =>
        rw [show encodeObject (.vmap (p :: rest)) = encodeDict (p :: rest) from by
          rw [encodeObject]] at hb
        rw [encodeDict_encPairs (p :: rest) (by simp) hnd] at hb
        cases hE : encPairs (sortEntries (p :: rest)) with
        | none => rw [hE] at hb; cases hb
        | some bs =>
          rw [hE] at hb
          simp at hb
          have hmems : ∀ e ∈ sortEntries (p :: rest),
              sizeOf (Prod.snd e) ≤ n ∧ good (Prod.snd e) = true := by
            intro e he
            have hem : e ∈ p :: rest := (sortEntries_perm _).mem_iff.mp he
            exact ⟨hszi e hem, (goodEntries_mem _ hge e hem).2⟩
          have h1 := inner (sortEntries (p :: rest)) hmems bs hE
          have h2 : needPairs (p :: rest) = needPairs (sortEntries (p :: rest)) :=
            needPairs_perm _ _ (sortEntries_perm _).symm
          rw [need, h2, ← hb]
          simp only [List.length_cons, List.length_append, List.length_singleton]
          omega

theorem need_le_fuel (v : GoVal) (b : List Nat) (hg : good v = true)
    (hb : encodeObject v = some b) : need v ≤ 4 * b.length :=
  le_trans (by omega) (need_le (sizeOf v) v (le_refl _) b hg hb)

/-! ## The decoder on encoded input: loops -/

/-- What a successful parse of (the encoding of) `v` looks like from any
cursor position: the decoded result is `canon v`, the cursor moves past the
encoding, and the `Consumed` flag is set exactly when nothing follows. -/
def DecOK (v : GoVal) : Prop :=
  ∀ b, encodeObject v = some b →
  ∀ fuel, need v ≤ fuel →
  ∀ (pre rest : List Nat) (last : Nat),
    nextObject fuel ⟨pre ++ b ++ rest, pre.length, false, last⟩ =
      .ret (canon v) none
        ⟨pre ++ b ++ rest, pre.length + b.length, rest.isEmpty, last⟩

theorem setCons_calc (v : GoVal) (e : Option BErr) (pre b rest : List Nat)
    (cs : Bool) (last : Nat) :
    setCons (.ret v e ⟨pre ++ b ++ rest, pre.length + b.length, cs, last⟩) =
      .ret v e ⟨pre ++ b ++ rest, pre.length + b.length,
        cs || rest.isEmpty, last⟩ := by
  rw [setCons]
  cases rest with
  | nil =>
    rw [if_pos (by simp)]
    simp
  | cons r rs =>
    rw [if_neg (by simp only [List.length_append, List.length_cons]; omega)]
    simp

theorem nextObject_step (fuel : Nat) (d : Decoder) (c : Nat)
    (hcons : d.Consumed = false) (hc : d.stream[d.pos]? = some c) :
    nextObject (fuel + 1) d =
      setCons
        (if c = 105 then mapRet .vint (nextInteger d)
         else if 48 ≤ c ∧ c ≤ 57 then mapRet .vstr (nextString d)
         else if c = 108 then mapRet .vlist (nextList fuel d)
         else if c = 100 then mapRet .vmap (nextDict fuel d)
         else .ret .vnil (some (.couldntParse c)) d) := by
  rw [nextObject, hcons, hc]
  simp

/-- A failing dispatch on a bad byte, from a mid-stream position. -/
theorem nextObject_badByte (fuel : Nat) (pre : List Nat) (c : Nat)
    (rest : List Nat) (last : Nat) (hbad : badByte c = true) :
    nextObject (fuel + 1) ⟨pre ++ c :: rest, pre.length, false, last⟩ =
      .ret .vnil (some (.couldntParse c))
        ⟨pre ++ c :: rest, pre.length, false, last⟩ := by
  have hparts : ¬ c = 105 ∧ ¬ (48 ≤ c ∧ c ≤ 57) ∧ ¬ c = 108 ∧ ¬ c = 100 := by
    simp only [badByte, Bool.not_eq_eq_eq_not, Bool.not_true, Bool.or_eq_false_iff,
      Bool.and_eq_false_iff, decide_eq_false_iff_not] at hbad
    refine ⟨hbad.1.1.1, ?_, hbad.1.2, hbad.2⟩
    rcases hbad.1.1.2 with h | h
    · exact fun hx => h hx.1
    · exact fun hx => h hx.2
  rw [nextObject_step fuel _ c rfl (byteAtPre pre c rest)]
  rw [if_neg hparts.1, if_neg hparts.2.1, if_neg hparts.2.2.1, if_neg hparts.2.2.2]
  rw [setCons]
  rw [if_neg (by simp only [List.length_append, List.length_cons]; omega)]

theorem listLoopRun : ∀ (items : List GoVal) (bs : List Nat), items ≠ [] →
    (∀ x ∈ items, good x = true ∧ DecOK x) →
    encodeItems items = some bs →
    ∀ fuel, needItems items ≤ fuel →
    ∀ (acc : List GoVal) (pre : List Nat) (c : Nat) (rest : List Nat) (last : Nat),
    (c = 101 ∨ badByte c = true) →
    listLoop fuel acc ⟨pre ++ bs ++ c :: rest, pre.length, false, last⟩ =
      (if c = 101 then
        .ret (acc ++ items.map canon) none
          ⟨pre ++ bs ++ c :: rest, pre.length + bs.length + 1, false, last⟩
      else
        .ret (acc ++ items.map canon) (some (.couldntParse c))
          ⟨pre ++ bs ++ c :: rest, pre.length + bs.length, false, last⟩) := by
  intro items
  induction items with
  | nil => intro bs hne; exact absurd rfl hne
  | cons x items ihx =>
    intro bs _ hIH hE fuel hfuel acc pre c rest last hc
    rw [encodeItems] at hE
    cases hEx : encodeObject x with
    | none => rw [hEx] at hE; cases hE
    | some bx =>
      rw [hEx] at hE
      cases hEr : encodeItems items with
      | none => rw [hEr] at hE; cases hE
      | some bs' =>
        rw [hEr] at hE
        simp at hE
        subst hE
        rw [needItems] at hfuel
        obtain ⟨f, rfl⟩ : ∃ f, fuel = f + 1 := ⟨fuel - 1, by omega⟩
        rw [listLoop]
        have hx := (hIH x (by simp)).2 bx hEx f (by omega) pre (bs' ++ c :: rest) last
        have hie : (bs' ++ c :: rest).isEmpty = false := by cases bs' <;> rfl
        rw [hie] at hx
        have hstream : pre ++ (bx ++ bs') ++ c :: rest
            = pre ++ bx ++ (bs' ++ c :: rest) := by simp
        rw [hstream, hx]
        simp only []
        cases items with
        | nil =>
          rw [show encodeItems [] = some [] from by rw [encodeItems]] at hEr
          cases hEr
          have hbyte : (pre ++ bx ++ ([] ++ c :: rest))[pre.length + bx.length]? = some c := by
            have h := byteAtPre (pre ++ bx) c rest
            simpa using h
          rw [hbyte]
          simp only []
          by_cases h101 : c = 101
          · subst h101
            simp
          · rw [if_neg h101, if_neg h101]
            have hbad : badByte c = true := by
              rcases hc with h | h
              · exact absurd h h101
              · exact h
            rw [needItems] at hfuel
            obtain ⟨f', rfl⟩ : ∃ f', f = f' + 2 := ⟨f - 2, by omega⟩
            rw [listLoop]
            have hno := nextObject_badByte f' (pre ++ bx) c rest last hbad
            have hstream2 : pre ++ bx ++ ([] ++ c :: rest)
                = (pre ++ bx) ++ c :: rest := by simp
            rw [hstream2, show pre.length + bx.length = (pre ++ bx).length from by simp,
              hno]
            simp
        | cons y items' =>
          have hgy := (hIH y (by simp)).1
          rw [encodeItems] at hEr
          cases hEy : encodeObject y with
          | none => rw [hEy] at hEr; cases hEr
          | some by1 =>
            rw [hEy] at hEr
            cases hEr2 : encodeItems items' with
            | none => rw [hEr2] at hEr; cases hEr
            | some bs1 =>
              rw [hEr2] at hEr
              simp at hEr
              obtain ⟨c', t', hby1, hbadc', hc'101⟩ := encodeObject_head y by1 hgy hEy
              have hbyte : (pre ++ bx ++ (bs' ++ c :: rest))[pre.length + bx.length]?
                  = some c' := by
                have h := byteAtPre (pre ++ bx) c' (t' ++ bs1 ++ c :: rest)
                rw [← hEr, hby1]
                have e1 : pre ++ bx ++ ((c' :: t') ++ bs1 ++ c :: rest)
                    = (pre ++ bx) ++ c' :: (t' ++ bs1 ++ c :: rest) := by simp
                rw [e1]
                simpa using h
              rw [hbyte]
              simp only []
              rw [if_neg hc'101]
              have hrec := ihx bs' (by simp) (fun z hz => hIH z (by simp [hz]))
                (by rw [encodeItems, hEy, hEr2]; simp [hEr])
                f (by omega) (acc ++ [canon x]) (pre ++ bx) c rest last hc
              have e2 : (pre ++ bx) ++ bs' ++ c :: rest
                  = pre ++ bx ++ (bs' ++ c :: rest) := by simp
              rw [e2, show (pre ++ bx).length = pre.length + bx.length from by simp]
                at hrec
              rw [hrec]
              by_cases h101 : c = 101
              · rw [if_pos h101, if_pos h101]
                simp only [List.map_cons, List.append_assoc, List.singleton_append,
                  List.length_append]
                rw [show pre.length + (bx.length + bs'.length)
                    = pre.length + bx.length + bs'.length from by omega]
              · rw [if_neg h101, if_neg h101]
                simp only [List.map_cons, List.append_assoc, List.singleton_append,
                  List.length_append]
                rw [show pre.length + (bx.length + bs'.length)
                    = pre.length + bx.length + bs'.length from by omega]

theorem dictLoopRun : ∀ (es : List (List Nat × GoVal)) (bs : List Nat), es ≠ [] →
    (∀ e ∈ es, e.1.length ≤ 2 ^ 63 - 1 ∧ good e.2 = true ∧ DecOK e.2) →
    encPairs es = some bs →
    ∀ fuel, needPairs es ≤ fuel →
    ∀ (acc : List (List Nat × GoVal)) (pre rest : List Nat) (last : Nat),
    ((acc ++ es).map Prod.fst).Nodup →
    dictLoop fuel acc ⟨pre ++ bs ++ 101 :: rest, pre.length, false, last⟩ =
      .ret (acc ++ es.map centry) none
        ⟨pre ++ bs ++ 101 :: rest, pre.length + bs.length + 1, false, last⟩ := by
  intro es
  induction es with
  | nil => intro bs hne; exact absurd rfl hne
  | cons e es ihe =>
    obtain ⟨k, v⟩ := e
    intro bs _ hIH hE fuel hfuel acc pre rest last hnd
    rw [encPairs] at hE
    cases hEv : encodeObject v with
    | none => rw [hEv] at hE; cases hE
    | some bv =>
      rw [hEv] at hE
      cases hEr : encPairs es with
      | none => rw [hEr] at hE; cases hE
      | some bs1 =>
        rw [hEr] at hE
        simp at hE
        subst hE
        rw [needPairs] at hfuel
        obtain ⟨f, rfl⟩ : ∃ f, fuel = f + 1 := ⟨fuel - 1, by omega⟩
        rw [dictLoop]
        have hks := (hIH (k, v) (by simp)).1
        have hkey := nextString_enc k hks pre (bv ++ (bs1 ++ 101 :: rest)) false last
        have hstream : pre ++ (encodeString k ++ (bv ++ bs1)) ++ 101 :: rest
            = pre ++ encodeString k ++ (bv ++ (bs1 ++ 101 :: rest)) := by simp
        rw [hstream, hkey]
        simp only []
        have hval := (hIH (k, v) (by simp)).2.2 bv hEv f
          (by show need v ≤ f; omega)
          (pre ++ encodeString k) (bs1 ++ 101 :: rest) last
        have hie : (bs1 ++ 101 :: rest).isEmpty = false := by cases bs1 <;> rfl
        rw [hie] at hval
        have hstream2 : pre ++ encodeString k ++ (bv ++ (bs1 ++ 101 :: rest))
            = (pre ++ encodeString k) ++ bv ++ (bs1 ++ 101 :: rest) := by simp
        rw [show pre.length + (encodeString k).length = (pre ++ encodeString k).length
          from by simp]
        rw [hstream2, hval]
        simp only []
        have hkacc : ¬ k ∈ acc.map Prod.fst := by
          rw [List.map_append] at hnd
          have hd := List.nodup_append.mp hnd
          intro hk
          exact (hd.2.2 hk) (by simp)
        have hins : mapInsert acc k (canon v) = acc ++ [(k, canon v)] :=
          mapInsert_append acc k (canon v) hkacc
        cases es with
        | nil =>
          rw [show encPairs [] = some [] from rfl] at hEr
          cases hEr
          have hbyte : ((pre ++ encodeString k) ++ bv ++ ([] ++ 101 :: rest))[(pre ++ encodeString k).length + bv.length]? = some 101 := by
            have h := byteAtPre (pre ++ encodeString k ++ bv) 101 rest
            rw [show (pre ++ encodeString k ++ bv).length
                = (pre ++ encodeString k).length + bv.length from by
              simp only [List.length_append]] at h
            simpa only [List.nil_append] using h
          rw [hbyte]
          simp only [hins, List.map_cons, List.map_nil, centry]
          rw [if_pos trivial]
          have hpos2 : (pre ++ encodeString k).length + bv.length + 1
              = pre.length + (encodeString k ++ (bv ++ [])).length + 1 := by
            simp only [List.length_append, List.length_nil]
            omega
          rw [hpos2]
        | cons e2 es' =>
          obtain ⟨k2, v2⟩ := e2
          rw [encPairs] at hEr
          cases hEv2 : encodeObject v2 with
          | none => rw [hEv2] at hEr; cases hEr
          | some bv2 =>
            rw [hEv2] at hEr
            cases hEr2 : encPairs es' with
            | none => rw [hEr2] at hEr; cases hEr
            | some bs2 =>
              rw [hEr2] at hEr
              simp at hEr
              obtain ⟨c', t', hek, hc1, hc2⟩ := encodeString_head k2
              have hbyte : ((pre ++ encodeString k) ++ bv ++ (bs1 ++ 101 :: rest))[(pre ++ encodeString k).length + bv.length]? = some c' := by
                rw [← hEr, hek]
                have h := byteAtPre (pre ++ encodeString k ++ bv) c'
                  (t' ++ (bv2 ++ bs2) ++ 101 :: rest)
                rw [show (pre ++ encodeString k ++ bv).length
                    = (pre ++ encodeString k).length + bv.length from by
                  simp only [List.length_append]] at h
                exact h
              rw [hbyte]
              simp only []
              rw [if_neg (by omega)]
              have hErFull : encPairs ((k2, v2) :: es') = some bs1 := by
                rw [encPairs, hEv2, hEr2]
                simp [← hEr]
              have hrec := ihe bs1 (by simp)
                (fun z hz => hIH z (List.mem_cons_of_mem _ hz)) hErFull f (by omega)
                (acc ++ [(k, canon v)]) ((pre ++ encodeString k) ++ bv) rest last
                (by
                  simp only [List.map_append, List.map_cons, List.map_nil] at hnd ⊢
                  simpa using hnd)
              rw [hins]
              have e3 : ((pre ++ encodeString k) ++ bv) ++ bs1 ++ 101 :: rest
                  = (pre ++ encodeString k) ++ bv ++ (bs1 ++ 101 :: rest) := by simp
              rw [e3] at hrec
              rw [show ((pre ++ encodeString k) ++ bv).length
                  = (pre ++ encodeString k).length + bv.length from by
                simp only [List.length_append]] at hrec
              rw [hrec]
              simp only [List.map_cons, centry, List.append_assoc, List.singleton_append,
                List.length_append]
              rw [show pre.length + ((encodeString k).length + (bv.length + bs1.length))
                  = pre.length + (encodeString k).length + bv.length + bs1.length from by
                omega]

/-! ## Decoding an encoded value -/

theorem byteAtPre2 (pre : List Nat) (c : Nat) (mid rest : List Nat) :
    (pre ++ (c :: mid) ++ rest)[pre.length]? = some c := by
  have h := byteAtPre pre c (mid ++ rest)
  simpa using h

theorem canon_vint (n : Int) : canon (.vint n) = .vint n := rfl

theorem canon_vstr (s : List Nat) : canon (.vstr s) = .vstr s := rfl

theorem decOK_of_good : ∀ v, good v = true → DecOK v := by
  have main : ∀ (n : Nat) (v : GoVal), sizeOf v ≤ n → good v = true → DecOK v := by
    intro n
    induction n with
    | zero => intro v hv; exfalso; cases v <;> simp at hv
    | succ n ih =>
      intro v hsz hg b hb fuel hfuel pre rest last
      cases v with
      | vnil => rw [good] at hg; cases hg
      | vint k =>
        rw [show encodeObject (.vint k) = some (encodeInteger k) from by
          rw [encodeObject]] at hb
        cases hb
        rw [good, Bool.and_eq_true, decide_eq_true_eq, decide_eq_true_eq] at hg
        rw [need] at hfuel
        obtain ⟨f, rfl⟩ : ∃ f, fuel = f + 1 := ⟨fuel - 1, by omega⟩
        have hby : (pre ++ encodeInteger k ++ rest)[pre.length]? = some 105 := by
          rw [show encodeInteger k = 105 :: (intDigits k ++ [101]) from by
            simp [encodeInteger]]
          exact byteAtPre2 pre 105 _ rest
        rw [nextObject_step f _ 105 rfl hby]
        rw [if_pos rfl]
        rw [nextInteger_enc k hg.1 hg.2 pre rest false last]
        rw [mapRet, setCons_calc]
        simp only [Bool.false_or]
        rfl
      | vstr s =>
        rw [show encodeObject (.vstr s) = some (encodeString s) from by
          rw [encodeObject]] at hb
        cases hb
        rw [good, decide_eq_true_eq] at hg
        rw [need] at hfuel
        obtain ⟨f, rfl⟩ : ∃ f, fuel = f + 1 := ⟨fuel - 1, by omega⟩
        obtain ⟨c, t, hcs, hc1, hc2⟩ := encodeString_head s
        have hby : (pre ++ encodeString s ++ rest)[pre.length]? = some c := by
          rw [hcs]
          exact byteAtPre2 pre c t rest
        rw [nextObject_step f _ c rfl hby]
        rw [if_neg (by omega), if_pos ⟨hc1, hc2⟩]
        rw [nextString_enc s hg pre rest false last]
        rw [mapRet, setCons_calc]
        simp only [Bool.false_or]
        rfl
      | vlist xs =>
        obtain ⟨hne, hgl⟩ := good_vlist_parts xs hg
        cases xs with
        | nil => exact absurd rfl hne
        | cons x xs' =>
          rw [show encodeObject (.vlist (x :: xs')) = encodeList (x :: xs') from by
            rw [encodeObject]] at hb
          rw [encodeList] at hb
          cases hE : encodeItems (x :: xs') with
          | none => rw [hE] at hb; cases hb
          | some bs =>
            rw [hE] at hb
            simp at hb
            subst hb
            rw [need] at hfuel
            obtain ⟨f, rfl⟩ : ∃ f, fuel = f + 1 := ⟨fuel - 1, by omega⟩
            have hby : (pre ++ 108 :: (bs ++ [101]) ++ rest)[pre.length]? = some 108 :=
              byteAtPre2 pre 108 _ rest
            rw [nextObject_step f _ 108 rfl hby]
            rw [if_neg (by omega), if_neg (by omega), if_pos rfl]
            obtain ⟨g, rfl⟩ : ∃ g, f = g + 1 := ⟨f - 1, by omega⟩
            rw [nextList]
            rw [if_pos (by simp only [List.length_append, List.length_cons]; omega)]
            have hsh : pre ++ 108 :: (bs ++ [101]) ++ rest
                = pre ++ 108 :: ((bs ++ [101]) ++ rest) := by simp
            rw [show ((⟨pre ++ 108 :: (bs ++ [101]) ++ rest, pre.length, false,
                last⟩ : Decoder).stream.getD (pre.length) 0)
                = 108 from by rw [hsh]; exact getDPre pre 108 _]
            rw [if_neg (by omega)]
            have hIHx : ∀ z ∈ x :: xs', good z = true ∧ DecOK z := by
              intro z hz
              have hgz := goodList_mem _ hgl z hz
              have h1 : sizeOf z < sizeOf (x :: xs') := List.sizeOf_lt_of_mem hz
              have h2 : sizeOf (GoVal.vlist (x :: xs')) = 1 + sizeOf (x :: xs') := by
                simp
              exact ⟨hgz, ih z (by omega) hgz⟩
            have hrun := listLoopRun (x :: xs') bs (by simp) hIHx hE g (by omega) []
              (pre ++ [108]) 101 rest last (Or.inl rfl)
            rw [if_pos rfl] at hrun
            have e1 : (pre ++ [108]) ++ bs ++ 101 :: rest
                = pre ++ 108 :: (bs ++ [101]) ++ rest := by simp
            have hlen108 : (pre ++ [108]).length = pre.length + 1 := by simp
            rw [e1, hlen108] at hrun
            simp only []
            rw [hrun, mapRet]
            have hpos : pre.length + 1 + bs.length + 1
                = pre.length + (108 :: (bs ++ [101])).length := by
              simp only [List.length_cons, List.length_append, List.length_singleton,
                List.length_nil]
              omega
            rw [hpos, setCons_calc]
            simp only [Bool.false_or, List.nil_append]
            rw [canon.eq_def]
            simp only [canonList_eq_map]
      | vmap m =>
        obtain ⟨hne, hnd, hge⟩ := good_vmap_parts m hg
        rw [show encodeObject (.vmap m) = encodeDict m from by rw [encodeObject]] at hb
        rw [encodeDict_encPairs m hne hnd] at hb
        cases hE : encPairs (sortEntries m) with
        | none => rw [hE] at hb; cases hb
        | some bs =>
          rw [hE] at hb
          simp at hb
          subst hb
          rw [need] at hfuel
          obtain ⟨f, rfl⟩ : ∃ f, fuel = f + 1 := ⟨fuel - 1, by omega⟩
          have hby : (pre ++ 100 :: (bs ++ [101]) ++ rest)[pre.length]? = some 100 :=
            byteAtPre2 pre 100 _ rest
          rw [nextObject_step f _ 100 rfl hby]
          rw [if_neg (by omega), if_neg (by omega), if_neg (by omega), if_pos rfl]
          obtain ⟨g, rfl⟩ : ∃ g, f = g + 1 := ⟨f - 1, by omega⟩
          rw [nextDict]
          rw [if_pos (by simp only [List.length_append, List.length_cons]; omega)]
          have hsh : pre ++ 100 :: (bs ++ [101]) ++ rest
              = pre ++ 100 :: ((bs ++ [101]) ++ rest) := by simp
          rw [show ((⟨pre ++ 100 :: (bs ++ [101]) ++ rest, pre.length, false,
              last⟩ : Decoder).stream.getD (pre.length) 0)
              = 100 from by rw [hsh]; exact getDPre pre 100 _]
          rw [if_neg (by omega)]
          have hIHes : ∀ e ∈ sortEntries m,
              e.1.length ≤ 2 ^ 63 - 1 ∧ good e.2 = true ∧ DecOK e.2 := by
            intro e he
            have hem : e ∈ m := (sortEntries_perm m).mem_iff.mp he
            have hga := goodEntries_mem m hge e hem
            have h1 := sizeOf_snd_lt m e hem
            have h2 : sizeOf (GoVal.vmap m) = 1 + sizeOf m := by simp
            exact ⟨hga.1, hga.2, ih e.2 (by omega) hga.2⟩
          have hples : needPairs (sortEntries m) = needPairs m :=
            needPairs_perm _ _ (sortEntries_perm m)
          have hnds : (([] ++ sortEntries m).map Prod.fst).Nodup := by
            simp only [List.nil_append]
            exact ((sortEntries_perm m).map Prod.fst).nodup_iff.mpr hnd
          have hnes : sortEntries m ≠ [] := by
            intro hcon
            have hp := sortEntries_perm m
            rw [hcon] at hp
            exact hne hp.nil_eq.symm
          have hrun := dictLoopRun (sortEntries m) bs hnes hIHes hE g (by omega) []
            (pre ++ [100]) rest last hnds
          have e1 : (pre ++ [100]) ++ bs ++ 101 :: rest
              = pre ++ 100 :: (bs ++ [101]) ++ rest := by simp
          have hlen100 : (pre ++ [100]).length = pre.length + 1 := by simp
          rw [e1, hlen100] at hrun
          simp only []
          rw [hrun, mapRet]
          have hpos : pre.length + 1 + bs.length + 1
              = pre.length + (100 :: (bs ++ [101])).length := by
            simp only [List.length_cons, List.length_append, List.length_singleton,
              List.length_nil]
            omega
          rw [hpos, setCons_calc]
          simp only [Bool.false_or, List.nil_append]
          rw [canon.eq_def]
          simp only [canonEntries_eq_map, ← sortEntries_map_centry]
  intro v hg
  exact main (sizeOf v) v le_rfl hg

/-! ## Totality of the encoder on well-formed values -/

theorem encodeObject_total : ∀ (n : Nat) (v : GoVal), sizeOf v ≤ n →
    good v = true → ∃ b, encodeObject v = some b := by
  intro n
  induction n with
  | zero => intro v hv; exfalso; cases v <;> simp at hv
  | succ n ih =>
    intro v hsz hg
    cases v with
    | vnil => rw [good] at hg; cases hg
    | vint k => exact ⟨encodeInteger k, by rw [encodeObject]⟩
    | vstr s => exact ⟨encodeString s, by rw [encodeObject]⟩
    | vlist xs =>
      obtain ⟨hne, hgl⟩ := good_vlist_parts xs hg
      have hszi : ∀ x ∈ xs, sizeOf x ≤ n := by
        intro x hx
        have h1 : sizeOf x < sizeOf xs := List.sizeOf_lt_of_mem hx
        have h2 : sizeOf (GoVal.vlist xs) = 1 + sizeOf xs := by simp
        omega
      have inner : ∀ (ys : List GoVal), (∀ y ∈ ys, sizeOf y ≤ n) →
          goodList ys = true → ∃ bs, encodeItems ys = some bs := by
        intro ys
        induction ys with
        | nil => intro _ _; exact ⟨[], by rw [encodeItems]⟩
        | cons y ys ihy =>
          intro hs hgl'
          rw [goodList, Bool.and_eq_true] at hgl'
          obtain ⟨by1, hby1⟩ := ih y (hs y (by simp)) hgl'.1
          obtain ⟨bs1, hbs1⟩ :=
            ihy (fun z hz => hs z (List.mem_cons_of_mem _ hz)) hgl'.2
          exact ⟨by1 ++ bs1, by rw [encodeItems, hby1, hbs1]; rfl⟩
      cases xs with
      | nil => exact absurd rfl hne
      | cons x xs' =>
        obtain ⟨bs, hbs⟩ := inner (x :: xs') hszi hgl
        refine ⟨108 :: (bs ++ [101]), ?_⟩
        rw [show encodeObject (.vlist (x :: xs')) = encodeList (x :: xs') from by
          rw [encodeObject]]
        rw [encodeList, hbs]
        rfl
    | vmap m =>
      obtain ⟨hne, hnd, hge⟩ := good_vmap_parts m hg
      have hszi : ∀ e ∈ m, sizeOf (Prod.snd e) ≤ n := by
        intro e he
        have h1 := sizeOf_snd_lt m e he
        have h2 : sizeOf (GoVal.vmap m) = 1 + sizeOf m := by simp
        omega
      have inner : ∀ (es : List (List Nat × GoVal)),
          (∀ e ∈ es, sizeOf (Prod.snd e) ≤ n ∧ good (Prod.snd e) = true) →
          ∃ bs, encPairs es = some bs := by
        intro es
        induction es with
        | nil => intro _; exact ⟨[], rfl⟩
        | cons e es ihe =>
          obtain ⟨k, v⟩ := e
          intro hs
          have hm := hs (k, v) (by simp)
          obtain ⟨bv, hbv⟩ := ih v hm.1 hm.2
          obtain ⟨bs1, hbs1⟩ := ihe (fun z hz => hs z (List.mem_cons_of_mem _ hz))
          exact ⟨encodeString k ++ bv ++ bs1, by rw [encPairs, hbv, hbs1]; rfl⟩
      obtain ⟨bs, hbs⟩ := inner (sortEntries m) (by
        intro e he
        have hem := (sortEntries_perm m).mem_iff.mp he
        exact ⟨hszi e hem, (goodEntries_mem m hge e hem).2⟩)
      refine ⟨100 :: (bs ++ [101]), ?_⟩
      rw [show encodeObject (.vmap m) = encodeDict m from by rw [encodeObject]]
      rw [encodeDict_encPairs m hne hnd, hbs]
      rfl

theorem goodList_iff (xs : List GoVal) :
    goodList xs = true ↔ ∀ x ∈ xs, good x = true := by
  constructor
  · exact goodList_mem xs
  · intro h
    induction xs with
    | nil => rfl
    | cons y ys ih =>
      rw [goodList, Bool.and_eq_true]
      exact ⟨h y (by simp), ih (fun z hz => h z (List.mem_cons_of_mem _ hz))⟩

theorem needItems_le (xs : List GoVal) (bs : List Nat) (hgl : goodList xs = true)
    (hE : encodeItems xs = some bs) : needItems xs ≤ 4 * bs.length + 2 := by
  induction xs generalizing bs with
  | nil =>
    rw [encodeItems] at hE
    cases hE
    rw [needItems]
    simp
  | cons x xs ih =>
    rw [goodList, Bool.and_eq_true] at hgl
    rw [encodeItems] at hE
    cases hEx : encodeObject x with
    | none => rw [hEx] at hE; cases hE
    | some bx =>
      rw [hEx] at hE
      cases hEr : encodeItems xs with
      | none => rw [hEr] at hE; cases hE
      | some bs1 =>
        rw [hEr] at hE
        simp at hE
        have h1 := need_le (sizeOf x) x le_rfl bx hgl.1 hEx
        have h2 := ih bs1 hgl.2 hEr
        rw [needItems, ← hE]
        simp only [List.length_append]
        omega

/-! ## Claim theorems -/

/-- C1, counterexample to the claim as stated: the empty list is a value of
the data model, its encoding is the empty byte stream, and decoding that
panics (out-of-range read) instead of yielding the value back. -/
theorem c1_counterexample :
    Encode (.vlist []) = some [] ∧ decode_one [] = .panic := by
  constructor
  · unfold Encode Encoder.Encode NewEncoder
    rw [show encodeObject (.vlist []) = some [] from by
      rw [encodeObject]; rw [encodeList]]
    rfl
  · rfl

/-- C1 (amended): for every value of the data model in which every list and
dict is non-empty (`good` also carries the data-model constraints: 64-bit
integers, unique dict keys, no `nil`), decoding the encoding succeeds and
returns the value up to dict entry order: exactly `canon v`, a value
`ValEquiv`-equal to `v` (lists elementwise in order, dicts with the same keys
and equivalent values). -/
theorem c1_roundtrip (v : GoVal) (hg : good v = true) :
    ∃ b, Encode v = some b ∧
      decode_one b = .ret (canon v) none ⟨b, b.length, true, b.length⟩ ∧
      ValEquiv v (canon v) := by
  obtain ⟨b, hb⟩ := encodeObject_total (sizeOf v) v le_rfl hg
  obtain ⟨c, t, hbs, _, _⟩ := encodeObject_head v b hg hb
  refine ⟨b, ?_, ?_, valEquiv_canon v⟩
  · unfold Encode Encoder.Encode NewEncoder
    rw [hb]
    simp only []
    rw [if_pos (show b.length > 0 from by rw [hbs]; simp)]
    simp
  · have hdec := decOK_of_good v hg b hb (4 * b.length + 4)
      (le_trans (need_le_fuel v b hg hb) (by omega)) [] [] 0
    unfold decode_one Decode NewDecoder defaultFuel
    simp only [List.nil_append, List.append_nil, List.length_nil, List.isEmpty_nil,
      Nat.zero_add] at hdec
    rw [hdec]

/-- C2: contrary to the claim (and to the spec's requirement of a clean
error), the decoder reads out of bounds — a Go runtime panic — both on the
empty buffer and on a list whose buffer ends before the terminating `e`
(`li1e`). -/
theorem c2_panics :
    decode_one [] = .panic ∧ decode_one [108, 105, 49, 101] = .panic :=
  ⟨rfl, rfl⟩

/-- C3: contrary to the claim, decoding `le` fails (the element loop parses
an object before testing for `e`, and dispatch on `e` hits the default
branch), and decoding `de` fails (the pair loop demands a string key and
finds `e`). -/
theorem c3_empty_collections_rejected :
    decode_one [108, 101] =
      .ret (.vlist []) (some (.couldntParse 101)) ⟨[108, 101], 1, false, 0⟩ ∧
    decode_one [100, 101] =
      .ret (.vmap []) (some .noLenDeterminator) ⟨[100, 101], 1, false, 0⟩ :=
  ⟨rfl, rfl⟩

/-- C4: encoding an empty list or dict as the top-level value appends no
bytes: the encoder comes back unchanged. -/
theorem c4_empty_collections_encode_nothing (e : Encoder) :
    Encoder.Encode e (.vlist []) = some e ∧ Encoder.Encode e (.vmap []) = some e := by
  constructor
  · unfold Encoder.Encode
    rw [show encodeObject (.vlist []) = some [] from by
      rw [encodeObject]; rw [encodeList]]
    rfl
  · unfold Encoder.Encode
    rw [show encodeObject (.vmap []) = some [] from by
      rw [encodeObject]; rw [encodeDict]]
    rfl

/-- C5: encoding a non-empty dict is independent of the entry order of the
backing map (hence of insertion and iteration order), and the key order the
encoder emits — `sortKeys` of the map's keys — is byte-wise ascending and a
permutation of those keys. -/
theorem c5_canonical_dict (m1 m2 : List (List Nat × GoVal)) (hperm : m1.Perm m2)
    (hnd : (m1.map Prod.fst).Nodup) (hne : m1 ≠ []) :
    encodeObject (.vmap m1) = encodeObject (.vmap m2) ∧
    (sortKeys (m1.map Prod.fst)).Sorted (fun a b => lexLe a b = true) ∧
    (sortKeys (m1.map Prod.fst)).Perm (m1.map Prod.fst) := by
  refine ⟨?_, sortKeys_sorted _, sortKeys_perm _⟩
  have hnd2 : (m2.map Prod.fst).Nodup := (hperm.map _).nodup_iff.mp hnd
  have hne2 : m2 ≠ [] := by
    intro hcon
    rw [hcon] at hperm
    exact hne (List.perm_nil.mp hperm)
  rw [show encodeObject (.vmap m1) = encodeDict m1 from by rw [encodeObject],
      show encodeObject (.vmap m2) = encodeDict m2 from by rw [encodeObject]]
  rw [encodeDict_encPairs m1 hne hnd, encodeDict_encPairs m2 hne2 hnd2]
  have hsame : sortEntries m1 = sortEntries m2 := by
    refine sorted_nodupk_eq _ _ ?_ (sortEntries_sorted _) (sortEntries_sorted _) ?_
    · exact (sortEntries_perm m1).trans (hperm.trans (sortEntries_perm m2).symm)
    · exact ((sortEntries_perm m1).map _).nodup_iff.mpr hnd
  rw [hsame]

theorem sliceGo_take (pre rest : List Nat) (l : Nat) :
    sliceGo (pre ++ rest) pre.length (pre.length + l) = rest.take l := by
  unfold sliceGo
  rw [List.take_append_eq_append_take]
  rw [List.take_of_length_le (by omega)]
  rw [show pre.length + l - pre.length = l from by omega]
  rw [List.drop_left]

/-- `nextString` on a buffer that declares length `l` followed by `rest`:
an error exactly when `l` exceeds the bytes after the `':'`, otherwise the
`l`-byte prefix of `rest`, cursor just past it. -/
theorem nextString_run (l : Nat) (hl : (l : Int) ≤ 2 ^ 63 - 1)
    (pre rest : List Nat) (cs : Bool) (last : Nat) :
    (rest.length < l →
      nextString ⟨pre ++ natDigits l ++ 58 :: rest, pre.length, cs, last⟩ =
        .ret [] (some .lengthExceeds)
          ⟨pre ++ natDigits l ++ 58 :: rest, pre.length, cs, last⟩) ∧
    (l ≤ rest.length →
      nextString ⟨pre ++ natDigits l ++ 58 :: rest, pre.length, cs, last⟩ =
        .ret (rest.take l) none
          ⟨pre ++ natDigits l ++ 58 :: rest,
            pre.length + (natDigits l).length + 1 + l, cs, last⟩) := by
  obtain ⟨c, t, hD⟩ : ∃ c t, natDigits l = c :: t := by
    cases hE : natDigits l with
    | nil => exact absurd hE (natDigits_ne_nil _)
    | cons c t => exact ⟨c, t, rfl⟩
  by_cases hplaceholder : True
  case neg => exact absurd trivial hplaceholder
  case pos =>
    have hcd : 48 ≤ c ∧ c ≤ 57 := natDigits_digits _ c (by rw [hD]; simp)
    have hs : pre ++ natDigits l ++ 58 :: rest = pre ++ c :: (t ++ 58 :: rest) := by
      rw [hD]; simp
    have hscan : colonScan (pre ++ natDigits l ++ 58 :: rest) pre.length
        = .found (pre.length + (natDigits l).length) :=
      colonScan_run (natDigits l) pre rest (natDigits_digits l)
    have hslice : sliceGo (pre ++ natDigits l ++ 58 :: rest) pre.length
        (pre.length + (natDigits l).length) = natDigits l := by
      have h := sliceGo_mid pre (natDigits l) (58 :: rest)
      exact h
    have hstep : ∀ goal1 : Prop, goal1 → goal1 := fun _ h => h
    constructor
    · intro hlt
      rw [hs]
      unfold nextString
      rw [if_pos (by simp only [List.length_append, List.length_cons]; omega)]
      rw [getDPre]
      rw [if_neg (by omega)]
      rw [← hs, hscan]
      simp only []
      rw [hslice, atoi_natDigits l hl]
      simp only []
      rw [if_pos (by
        simp only [List.length_append, List.length_cons]
        push_cast
        omega)]
    · intro hle
      rw [hs]
      unfold nextString
      rw [if_pos (by simp only [List.length_append, List.length_cons]; omega)]
      rw [getDPre]
      rw [if_neg (by omega)]
      rw [← hs, hscan]
      simp only []
      rw [hslice, atoi_natDigits l hl]
      simp only []
      rw [if_neg (by
        simp only [List.length_append, List.length_cons]
        push_cast
        omega)]
      have hsl : sliceGo (pre ++ natDigits l ++ 58 :: rest)
          (pre.length + (natDigits l).length + 1)
          (pre.length + (natDigits l).length + 1 + (l : Int).toNat) = rest.take l := by
        rw [show ((l : Int)).toNat = l from by omega]
        have h := sliceGo_take (pre ++ natDigits l ++ [58]) rest l
        have e1 : (pre ++ natDigits l ++ [58]) ++ rest
            = pre ++ natDigits l ++ 58 :: rest := by simp
        have e2 : (pre ++ natDigits l ++ [58]).length
            = pre.length + (natDigits l).length + 1 := by
          simp only [List.length_append, List.length_singleton]
        rw [e1, e2] at h
        exact h
      rw [hsl]
      rw [show ((l : Int)).toNat = l from by omega]

/-- C6 (amended): when an element of a list fails to parse, `Decode` returns
the error together with the partial list of the elements decoded so far (it
is not the case that no partial result value is produced). -/
theorem c6_partial_list (vs : List GoVal) (bs : List Nat) (j : Nat)
    (hvs : ∀ v ∈ vs, good v = true) (hne : vs ≠ [])
    (hbs : encodeItems vs = some bs) (hj : badByte j = true) (hj2 : j ≠ 101) :
    decode_one (108 :: (bs ++ [j])) =
      .ret (.vlist (vs.map canon)) (some (.couldntParse j))
        ⟨108 :: (bs ++ [j]), 1 + bs.length, false, 0⟩ := by
  unfold decode_one Decode NewDecoder defaultFuel
  simp only [List.length_cons, List.length_append, List.length_singleton,
    List.length_nil, Nat.zero_add]
  obtain ⟨f, hf⟩ : ∃ f, 4 * (bs.length + 1 + 1) + 4 = f + 2 :=
    ⟨4 * (bs.length + 1 + 1) + 2, by omega⟩
  rw [hf]
  rw [nextObject_step (f + 1) (⟨108 :: (bs ++ [j]), 0, false, 0⟩ : Decoder) 108 rfl
    (by exact List.getElem?_cons_zero)]
  rw [if_neg (by omega), if_neg (by omega), if_pos rfl]
  rw [nextList]
  rw [if_pos (by simp only [List.length_cons, List.length_append]; omega)]
  rw [show ((⟨108 :: (bs ++ [j]), 0, false, 0⟩ : Decoder).stream.getD 0 0) = 108 from rfl]
  rw [if_neg (by omega)]
  have hrun := listLoopRun vs bs hne
    (fun x hx => ⟨hvs x hx, decOK_of_good x (hvs x hx)⟩) hbs f
    (by
      have h1 := needItems_le vs bs ((goodList_iff vs).mpr hvs) hbs
      omega)
    [] [108] j [] 0 (Or.inr hj)
  rw [if_neg hj2] at hrun
  have e1 : [108] ++ bs ++ j :: [] = 108 :: (bs ++ [j]) := by simp
  have e2 : ([108] : List Nat).length = 1 := rfl
  rw [e1, e2] at hrun
  simp only []
  rw [hrun]
  rw [mapRet, setCons]
  rw [if_neg (by simp only [List.length_cons, List.length_append, List.length_singleton]; omega)]
  simp only [List.nil_append]

/-- C7: parsing `<l>:<rest>` — if the declared length `l` exceeds the bytes
after the `':'` the decode fails with the length-exceeds error and the
cursor does not move; otherwise exactly `l` raw bytes are returned and the
cursor (and, on this successful `Decode`, `Last`) lands just past them; a
declared length equal to the remaining bytes succeeds, in particular `l = 0`
with the empty string. -/
theorem c7_string_parsing (l : Nat) (rest : List Nat) (hl : (l : Int) ≤ 2 ^ 63 - 1) :
    (rest.length < l →
      decode_one (natDigits l ++ 58 :: rest) =
        .ret (.vstr []) (some .lengthExceeds)
          ⟨natDigits l ++ 58 :: rest, 0, false, 0⟩) ∧
    (l ≤ rest.length →
      decode_one (natDigits l ++ 58 :: rest) =
        .ret (.vstr (rest.take l)) none
          ⟨natDigits l ++ 58 :: rest, (natDigits l).length + 1 + l,
            decide (rest.length ≤ l), (natDigits l).length + 1 + l⟩) := by
  obtain ⟨hrun1, hrun2⟩ := nextString_run l hl [] rest false 0
  simp only [List.nil_append, List.length_nil, Nat.zero_add] at hrun1 hrun2
  obtain ⟨c, t, hD⟩ : ∃ c t, natDigits l = c :: t := by
    cases hE : natDigits l with
    | nil => exact absurd hE (natDigits_ne_nil _)
    | cons c t => exact ⟨c, t, rfl⟩
  by_cases hplaceholder2 : True
  case neg => exact absurd trivial hplaceholder2
  case pos =>
    have hcd : 48 ≤ c ∧ c ≤ 57 := natDigits_digits _ c (by rw [hD]; simp)
    have hby : (natDigits l ++ 58 :: rest)[0]? = some c := by
      rw [hD, List.cons_append]
      exact List.getElem?_cons_zero
    constructor
    · intro hlt
      unfold decode_one Decode NewDecoder defaultFuel
      obtain ⟨f, hf⟩ : ∃ f, 4 * (natDigits l ++ 58 :: rest).length + 4 = f + 1 :=
        ⟨4 * (natDigits l ++ 58 :: rest).length + 3, by omega⟩
      rw [hf]
      rw [nextObject_step f _ c rfl hby]
      rw [if_neg (by omega), if_pos ⟨hcd.1, hcd.2⟩]
      rw [hrun1 hlt]
      rw [mapRet, setCons]
      rw [if_neg (by
        rw [hD]
        simp only [List.length_cons, List.length_append]
        omega)]
    · intro hle
      unfold decode_one Decode NewDecoder defaultFuel
      obtain ⟨f, hf⟩ : ∃ f, 4 * (natDigits l ++ 58 :: rest).length + 4 = f + 1 :=
        ⟨4 * (natDigits l ++ 58 :: rest).length + 3, by omega⟩
      rw [hf]
      rw [nextObject_step f _ c rfl hby]
      rw [if_neg (by omega), if_pos ⟨hcd.1, hcd.2⟩]
      rw [hrun2 hle]
      rw [mapRet, setCons]
      by_cases hfull : rest.length ≤ l
      · rw [if_pos (by
          simp only [List.length_append, List.length_cons]
          omega)]
        simp only []
        rw [show decide (rest.length ≤ l) = true from by simp [hfull]]
      · rw [if_neg (by
          simp only [List.length_append, List.length_cons]
          omega)]
        simp only []
        rw [show decide (rest.length ≤ l) = false from by simp [hfull]]

/-- C8: every signed 64-bit integer decodes back from `i<n>e`, and a decimal
whose value lies outside the 64-bit range makes `strconv.Atoi` fail, so the
decode reports an error (`atoiErr`) rather than truncating or wrapping. -/
theorem c8_int64_range (n : Int) :
    (-(2 ^ 63) ≤ n ∧ n ≤ 2 ^ 63 - 1 →
      decode_one (encodeInteger n) =
        .ret (.vint n) none ⟨encodeInteger n, (encodeInteger n).length, true,
          (encodeInteger n).length⟩) ∧
    ((n < -(2 ^ 63) ∨ n > 2 ^ 63 - 1) →
      decode_one (encodeInteger n) =
        .ret (.vint 0) (some .atoiErr) ⟨encodeInteger n, 0, false, 0⟩) := by
  constructor
  · intro hrange
    have hg : good (.vint n) = true := by
      rw [good, Bool.and_eq_true, decide_eq_true_eq, decide_eq_true_eq]
      omega
    have hdec := decOK_of_good (.vint n) hg (encodeInteger n) (by rw [encodeObject])
      (4 * (encodeInteger n).length + 4)
      (le_trans (need_le_fuel (.vint n) _ hg (by rw [encodeObject])) (by omega)) [] [] 0
    unfold decode_one Decode NewDecoder defaultFuel
    simp only [List.nil_append, List.append_nil, List.length_nil, List.isEmpty_nil,
      Nat.zero_add] at hdec
    rw [hdec]
    rfl
  · intro hrange
    unfold decode_one Decode NewDecoder defaultFuel
    obtain ⟨f, hf⟩ : ∃ f, 4 * (encodeInteger n).length + 4 = f + 1 :=
      ⟨4 * (encodeInteger n).length + 3, by omega⟩
    rw [hf]
    have hby : (encodeInteger n)[0]? = some 105 := by
      rw [show encodeInteger n = 105 :: (intDigits n ++ [101]) from by
        simp [encodeInteger]]
      exact List.getElem?_cons_zero
    rw [nextObject_step f _ 105 rfl hby]
    rw [if_pos rfl]
    have hov := nextInteger_overflow n hrange [] [] false 0
    simp only [List.nil_append, List.append_nil, List.length_nil] at hov
    rw [hov]
    rw [mapRet, setCons]
    rw [if_neg (by
      rw [show encodeInteger n = 105 :: (intDigits n ++ [101]) from by
        simp [encodeInteger]]
      simp only [List.length_cons, List.length_append]
      omega)]

theorem decodeAllLoopRun : ∀ (vs : List GoVal) (bs : List Nat) (j : Nat),
    (∀ v ∈ vs, good v = true) → encodeItems vs = some bs → badByte j = true →
    ∀ fuel, needItems vs ≤ fuel →
    ∀ (acc : List GoVal) (pre : List Nat) (last : Nat),
    decodeAllLoop fuel acc ⟨pre ++ bs ++ [j], pre.length, false, last⟩ =
      .ret (acc ++ vs.map canon) (some (.couldntParse j))
        ⟨pre ++ bs ++ [j], pre.length + bs.length, false, last⟩ := by
  intro vs
  induction vs with
  | nil =>
    intro bs j _ hE hj fuel hfuel acc pre last
    rw [encodeItems] at hE
    cases hE
    rw [needItems] at hfuel
    obtain ⟨f, rfl⟩ : ∃ f, fuel = f + 2 := ⟨fuel - 2, by omega⟩
    rw [decodeAllLoop]
    have hno := nextObject_badByte f pre j [] last hj
    have e1 : pre ++ [] ++ [j] = pre ++ j :: [] := by simp
    rw [e1, hno]
    simp
  | cons v vs ihv =>
    intro bs j hg hE hj fuel hfuel acc pre last
    rw [encodeItems] at hE
    cases hEv : encodeObject v with
    | none => rw [hEv] at hE; cases hE
    | some bv =>
      rw [hEv] at hE
      cases hEr : encodeItems vs with
      | none => rw [hEr] at hE; cases hE
      | some bs1 =>
        rw [hEr] at hE
        simp at hE
        subst hE
        rw [needItems] at hfuel
        obtain ⟨f, rfl⟩ : ∃ f, fuel = f + 1 := ⟨fuel - 1, by omega⟩
        rw [decodeAllLoop]
        have hx := decOK_of_good v (hg v (by simp)) bv hEv f (by omega) pre
          (bs1 ++ [j]) last
        have hie : (bs1 ++ [j]).isEmpty = false := by cases bs1 <;> rfl
        rw [hie] at hx
        have hstream : pre ++ (bv ++ bs1) ++ [j] = pre ++ bv ++ (bs1 ++ [j]) := by simp
        rw [hstream, hx]
        simp only []
        rw [if_neg (by
          simp only [List.length_append, List.length_singleton]
          omega)]
        have hrec := ihv bs1 j (fun z hz => hg z (by simp [hz])) hEr hj f (by omega)
          (acc ++ [canon v]) (pre ++ bv) last
        rw [show (pre ++ bv) ++ bs1 ++ [j] = pre ++ bv ++ (bs1 ++ [j]) from by simp,
          show (pre ++ bv).length = pre.length + bv.length from by simp] at hrec
        rw [hrec]
        simp only [List.map_cons, List.append_assoc, List.singleton_append,
          List.length_append]
        rw [show pre.length + (bv.length + bs1.length)
            = pre.length + bv.length + bs1.length from by omega]

/-- C9: `decode_all` on a back-to-back stream returns all values in order
(the spec's literal `i1ei2ei3e` example), and on hitting a malformed item it
stops, returning the values collected so far together with the error and no
value for the failed item. -/
theorem c9_decode_all (vs : List GoVal) (bs : List Nat) (j : Nat)
    (hvs : ∀ v ∈ vs, good v = true) (hbs : encodeItems vs = some bs)
    (hj : badByte j = true) :
    decode_all [105, 49, 101, 105, 50, 101, 105, 51, 101] =
      .ret [.vint 1, .vint 2, .vint 3] none
        ⟨[105, 49, 101, 105, 50, 101, 105, 51, 101], 9, true, 0⟩ ∧
    decode_all (bs ++ [j]) =
      .ret (vs.map canon) (some (.couldntParse j)) ⟨bs ++ [j], bs.length, false, 0⟩ := by
  constructor
  · rfl
  · unfold decode_all DecodeAll NewDecoder defaultFuel
    have h := decodeAllLoopRun vs bs j hvs hbs hj (4 * (bs ++ [j]).length + 4)
      (by
        have h1 := needItems_le vs bs ((goodList_iff vs).mpr hvs) hbs
        simp only [List.length_append, List.length_singleton]
        omega) [] [] 0
    simp only [List.nil_append, List.length_nil, Nat.zero_add] at h
    rw [h]

/-! ## `Last` is only written by a successful `Decode` -/

theorem nextInteger_last (d : Decoder) (r : Int) (e : Option BErr) (d' : Decoder)
    (h : nextInteger d = .ret r e d') : d'.Last = d.Last := by
  unfold nextInteger at h
  split at h
  · split at h
    · cases h; rfl
    · split at h
      · cases h
      · cases h; rfl
      · split at h
        · cases h; rfl
        · cases h; rfl
  · cases h; rfl

theorem nextString_last (d : Decoder) (r : List Nat) (e : Option BErr) (d' : Decoder)
    (h : nextString d = .ret r e d') : d'.Last = d.Last := by
  unfold nextString at h
  split at h
  · split at h
    · cases h; rfl
    · split at h
      · cases h
      · cases h; rfl
      · split at h
        · cases h; rfl
        · split at h
          · cases h; rfl
          · cases h; rfl
  · cases h; rfl

theorem mapRet_last {α : Type} (g : α → GoVal) (x : Ret α) (r : GoVal)
    (e : Option BErr) (d' : Decoder) (h : mapRet g x = .ret r e d') :
    ∃ r₀, x = .ret r₀ e d' := by
  cases x with
  | ret v e₀ d₀ => rw [mapRet] at h; cases h; exact ⟨v, rfl⟩
  | panic => rw [mapRet] at h; cases h
  | fuelOut => rw [mapRet] at h; cases h

theorem setCons_last (x : Ret GoVal) (r : GoVal) (e : Option BErr) (d' : Decoder)
    (h : setCons x = .ret r e d') : ∃ d₀, x = .ret r e d₀ ∧ d'.Last = d₀.Last := by
  cases x with
  | ret v e₀ d₀ =>
    rw [setCons] at h
    cases h
    refine ⟨d₀, rfl, ?_⟩
    split <;> rfl
  | panic => rw [setCons] at h; cases h
  | fuelOut => rw [setCons] at h; cases h

theorem decoder_last : ∀ fuel : Nat,
    (∀ d r e d', nextObject fuel d = .ret r e d' → d'.Last = d.Last) ∧
    (∀ d r e d', nextList fuel d = .ret r e d' → d'.Last = d.Last) ∧
    (∀ acc d r e d', listLoop fuel acc d = .ret r e d' → d'.Last = d.Last) ∧
    (∀ d r e d', nextDict fuel d = .ret r e d' → d'.Last = d.Last) ∧
    (∀ acc d r e d', dictLoop fuel acc d = .ret r e d' → d'.Last = d.Last) := by
  intro fuel
  induction fuel with
  | zero =>
    refine ⟨?_, ?_, ?_, ?_, ?_⟩
    · intro d r e d' h; rw [nextObject] at h; cases h
    · intro d r e d' h; rw [nextList] at h; cases h
    · intro acc d r e d' h; rw [listLoop] at h; cases h
    · intro d r e d' h; rw [nextDict] at h; cases h
    · intro acc d r e d' h; rw [dictLoop] at h; cases h
  | succ f ih =>
    obtain ⟨ihO, ihL, ihLL, ihD, ihDL⟩ := ih
    have hObj : ∀ d r e d', nextObject (f + 1) d = .ret r e d' → d'.Last = d.Last := by
      intro d r e d' h
      rw [nextObject] at h
      split at h
      · cases h; rfl
      · split at h
        · cases h
        · rename_i c hc
          obtain ⟨d₀, hx, hlast⟩ := setCons_last _ _ _ _ h
          rw [hlast]
          clear h hlast
          split at hx
          · obtain ⟨r₀, hx2⟩ := mapRet_last _ _ _ _ _ hx
            exact nextInteger_last d r₀ e d₀ hx2
          · split at hx
            · obtain ⟨r₀, hx2⟩ := mapRet_last _ _ _ _ _ hx
              exact nextString_last d r₀ e d₀ hx2
            · split at hx
              · obtain ⟨r₀, hx2⟩ := mapRet_last _ _ _ _ _ hx
                exact ihL d r₀ e d₀ hx2
              · split at hx
                · obtain ⟨r₀, hx2⟩ := mapRet_last _ _ _ _ _ hx
                  exact ihD d r₀ e d₀ hx2
                · cases hx; rfl
    have hList : ∀ d r e d', nextList (f + 1) d = .ret r e d' → d'.Last = d.Last := by
      intro d r e d' h
      rw [nextList] at h
      split at h
      · split at h
        · cases h; rfl
        · have h2 := ihLL [] _ r e d' h
          exact h2
      · cases h; rfl
    have hLL : ∀ acc d r e d', listLoop (f + 1) acc d = .ret r e d' → d'.Last = d.Last := by
      intro acc d r e d' h
      rw [listLoop] at h
      split at h
      · cases h
      · cases h
      · rename_i o e₀ d₁ heq
        have h1 : d₁.Last = d.Last := ihO d o e₀ d₁ heq
        split at h
        · cases h; exact h1
        · split at h
          · cases h
          · split at h
            · cases h; exact h1
            · rw [ihLL _ _ r e d' h]; exact h1
    have hDict : ∀ d r e d', nextDict (f + 1) d = .ret r e d' → d'.Last = d.Last := by
      intro d r e d' h
      rw [nextDict] at h
      split at h
      · split at h
        · cases h; rfl
        · have h2 := ihDL [] _ r e d' h
          exact h2
      · cases h; rfl
    have hDL : ∀ acc d r e d', dictLoop (f + 1) acc d = .ret r e d' → d'.Last = d.Last := by
      intro acc d r e d' h
      rw [dictLoop] at h
      split at h
      · cases h
      · cases h
      · rename_i key e₀ d₁ heq
        have h1 : d₁.Last = d.Last := nextString_last d key e₀ d₁ heq
        split at h
        · cases h; exact h1
        · split at h
          · cases h
          · cases h
          · rename_i val e₂ d₂ heq2
            have h2 : d₂.Last = d₁.Last := ihO d₁ val e₂ d₂ heq2
            split at h
            · cases h; exact h2.trans h1
            · split at h
              · cases h
              · split at h
                · cases h; exact h2.trans h1
                · rw [ihDL _ _ r e d' h, h2]; exact h1
    exact ⟨hObj, hList, hLL, hDict, hDL⟩

theorem decodeAllLoop_last : ∀ (fuel : Nat) (acc : List GoVal) (d : Decoder)
    (r : List GoVal) (e : Option BErr) (d' : Decoder),
    decodeAllLoop fuel acc d = .ret r e d' → d'.Last = d.Last := by
  intro fuel
  induction fuel with
  | zero => intro acc d r e d' h; rw [decodeAllLoop] at h; cases h
  | succ f ih =>
    intro acc d r e d' h
    rw [decodeAllLoop] at h
    split at h
    · cases h
    · cases h
    · rename_i o e₀ d₁ heq
      have h1 : d₁.Last = d.Last := (decoder_last f).1 d o e₀ d₁ heq
      split at h
      · cases h; exact h1
      · split at h
        · cases h; exact h1
        · rw [ih _ _ r e d' h]; exact h1

/-- C10: the `Last` field records the cursor position after the most recent
*successful* `Decode`: a succeeding `Decode` sets it to the final cursor, a
failing `Decode` leaves it unchanged, and `DecodeAll` never modifies it. -/
theorem c10_last_tracking (d : Decoder) :
    (∀ v d', Decode d = .ret v none d' → d'.Last = d'.pos) ∧
    (∀ v e d', Decode d = .ret v (some e) d' → d'.Last = d.Last) ∧
    (∀ r e d', DecodeAll d = .ret r e d' → d'.Last = d.Last) := by
  refine ⟨?_, ?_, ?_⟩
  · intro v d' h
    unfold Decode at h
    cases hx : nextObject (defaultFuel d) d with
    | ret v₀ e₀ d₀ =>
      rw [hx] at h
      cases e₀ with
      | none =>
        simp only [] at h
        cases h
        rfl
      | some e₁ =>
        simp only [] at h
        injection h with h1 h2 h3
        cases h2
    | panic => rw [hx] at h; cases h
    | fuelOut => rw [hx] at h; cases h
  · intro v e d' h
    unfold Decode at h
    cases hx : nextObject (defaultFuel d) d with
    | ret v₀ e₀ d₀ =>
      rw [hx] at h
      cases e₀ with
      | none =>
        simp only [] at h
        injection h with h1 h2 h3
        cases h2
      | some e₁ =>
        simp only [] at h
        cases h
        exact (decoder_last (defaultFuel d)).1 d v (some e) d' hx
    | panic => rw [hx] at h; cases h
    | fuelOut => rw [hx] at h; cases h
  · intro r e d' h
    exact decodeAllLoop_last (defaultFuel d) [] d r e d' h

/-! ## Witnesses: the claim theorems applied to concrete inputs -/

/-- C6, counterexample to the claim as stated: decoding `li1ex` fails with
an error on the `x`, but the result value returned alongside the error is
the partial list `[1]` of the elements already parsed — the call is not
atomic. -/
theorem c6_counterexample :
    decode_one [108, 105, 49, 101, 120] =
      .ret (.vlist [.vint 1]) (some (.couldntParse 120))
        ⟨[108, 105, 49, 101, 120], 4, false, 0⟩ := rfl

theorem c1_roundtrip_witness :
    good (.vmap [([98], .vint (-5)), ([97], .vlist [.vstr [120], .vint 3])]) = true ∧
    (∃ b, Encode (.vmap [([98], .vint (-5)), ([97], .vlist [.vstr [120], .vint 3])]) = some b ∧
      decode_one b =
        .ret (canon (.vmap [([98], .vint (-5)), ([97], .vlist [.vstr [120], .vint 3])])) none
          ⟨b, b.length, true, b.length⟩ ∧
      ValEquiv (.vmap [([98], .vint (-5)), ([97], .vlist [.vstr [120], .vint 3])])
        (canon (.vmap [([98], .vint (-5)), ([97], .vlist [.vstr [120], .vint 3])]))) :=
  ⟨by decide, c1_roundtrip _ (by decide)⟩

theorem c5_canonical_dict_witness :
    ([([98], GoVal.vint 1), ([97], GoVal.vint 2)] : List (List Nat × GoVal)).Perm
      [([97], GoVal.vint 2), ([98], GoVal.vint 1)] ∧
    (encodeObject (.vmap [([98], .vint 1), ([97], .vint 2)]) =
        encodeObject (.vmap [([97], .vint 2), ([98], .vint 1)]) ∧
      (sortKeys ([([98], GoVal.vint 1), ([97], GoVal.vint 2)].map Prod.fst)).Sorted
        (fun a b => lexLe a b = true) ∧
      (sortKeys ([([98], GoVal.vint 1), ([97], GoVal.vint 2)].map Prod.fst)).Perm
        ([([98], GoVal.vint 1), ([97], GoVal.vint 2)].map Prod.fst)) :=
  ⟨List.Perm.swap _ _ _,
   c5_canonical_dict _ _ (List.Perm.swap _ _ _) (by decide) (by simp)⟩

theorem c6_partial_list_witness :
    encodeItems [GoVal.vint 1] = some [105, 49, 101] ∧
    decode_one (108 :: ([105, 49, 101] ++ [120])) =
      .ret (.vlist ([GoVal.vint 1].map canon)) (some (.couldntParse 120))
        ⟨108 :: ([105, 49, 101] ++ [120]), 1 + ([105, 49, 101] : List Nat).length, false, 0⟩ :=
  ⟨by rw [encodeItems]; rw [encodeObject]; rw [encodeItems]; rfl,
   c6_partial_list [GoVal.vint 1] [105, 49, 101] 120 (by decide) (by simp)
     (by rw [encodeItems]; rw [encodeObject]; rw [encodeItems]; rfl) rfl (by decide)⟩

theorem c7_string_parsing_witness :
    ([97, 98] : List Nat).length < 5 ∧
    decode_one (natDigits 5 ++ 58 :: [97, 98]) =
      .ret (.vstr []) (some .lengthExceeds) ⟨natDigits 5 ++ 58 :: [97, 98], 0, false, 0⟩ :=
  ⟨by decide, (c7_string_parsing 5 [97, 98] (by decide)).1 (by decide)⟩

theorem c8_int64_range_witness :
    (-(2 ^ 63) ≤ (5 : Int) ∧ (5 : Int) ≤ 2 ^ 63 - 1) ∧
    decode_one (encodeInteger 5) =
      .ret (.vint 5) none ⟨encodeInteger 5, (encodeInteger 5).length, true,
        (encodeInteger 5).length⟩ :=
  ⟨by decide, (c8_int64_range 5).1 (by decide)⟩

theorem c9_decode_all_witness :
    encodeItems [GoVal.vint 1] = some [105, 49, 101] ∧ badByte 120 = true ∧
    decode_all ([105, 49, 101] ++ [120]) =
      .ret ([GoVal.vint 1].map canon) (some (.couldntParse 120))
        ⟨[105, 49, 101] ++ [120], ([105, 49, 101] : List Nat).length, false, 0⟩ :=
  ⟨by rw [encodeItems]; rw [encodeObject]; rw [encodeItems]; rfl, rfl,
   (c9_decode_all [GoVal.vint 1] [105, 49, 101] 120 (by decide)
     (by rw [encodeItems]; rw [encodeObject]; rw [encodeItems]; rfl) rfl).2⟩

theorem c10_last_tracking_witness :
    Decode (⟨[108, 105, 49, 101, 120], 0, false, 5⟩ : Decoder) =
      .ret (.vlist [.vint 1]) (some (.couldntParse 120))
        ⟨[108, 105, 49, 101, 120], 4, false, 5⟩ ∧
    Decoder.Last ⟨[108, 105, 49, 101, 120], 4, false, 5⟩ =
      Decoder.Last ⟨[108, 105, 49, 101, 120], 0, false, 5⟩ :=
  ⟨rfl, (c10_last_tracking ⟨[108, 105, 49, 101, 120], 0, false, 5⟩).2.1
    (.vlist [.vint 1]) (.couldntParse 120) ⟨[108, 105, 49, 101, 120], 4, false, 5⟩ rfl⟩
